import Mathlib

/-!
Verification of the content-extraction engine of the Century21 listing scraper
(`app/integrations/century21/data_scraper.py`).

The Python code is shallowly embedded: strings are lists of Unicode
characters (code points), Python floats are rationals, Python dicts are
insertion-ordered association lists with unique keys, and the DOM-locating
parts of the scraper (BeautifulSoup lookups) are abstracted into a `Page`
structure carrying the raw text each locator would return.  Everything from
that point on - cleaning, numeric extraction, the heuristic description
segmenter, the detail/feature extractor, the merge and consolidation logic of
`parse_property_html` - is translated statement by statement from the source.
-/

namespace C21

/-- Python strings are sequences of Unicode code points; we model them as
lists of `Char`.  `List Char` comparison in Mathlib is lexicographic by code
point, exactly like Python string comparison. -/
abbrev Str := List Char

/-- Conversion helper for writing concrete `Str` values from Lean string
literals. -/
def str (s : String) : Str := s.toList

/-- Whitespace, per Python's `str.isspace` / the regex class `\s` (Unicode
mode): ASCII whitespace, the C1/Unicode space characters.  This is the
character repertoire relevant to the scraped pages. -/
def isPySpace (c : Char) : Bool :=
  c = ' ' || c = '\t' || c = '\n' || c = '\r' || c = '\x0b' || c = '\x0c' ||
  (0x1c ≤ c.toNat && c.toNat ≤ 0x1f) || c.toNat = 0x85 || c.toNat = 0xa0 ||
  c.toNat = 0x1680 || (0x2000 ≤ c.toNat && c.toNat ≤ 0x200a) ||
  c.toNat = 0x2028 || c.toNat = 0x2029 || c.toNat = 0x202f ||
  c.toNat = 0x205f || c.toNat = 0x3000

/-- The invisible marks removed by the scraper's regex
`[​-‍⁠﻿]` (zero-width spaces/joiners, word joiner, BOM). -/
def isInvisible (c : Char) : Bool :=
  (0x200b ≤ c.toNat && c.toNat ≤ 0x200d) || c.toNat = 0x2060 || c.toNat = 0xfeff

/-- Python `str.lower`, restricted to the character repertoire the scraper
meets (ASCII letters plus the accented Spanish letters). Other characters are
fixed points, as in Python for non-cased characters. -/
def lowerChar : Char → Char
  | 'A' => 'a' | 'B' => 'b' | 'C' => 'c' | 'D' => 'd' | 'E' => 'e' | 'F' => 'f'
  | 'G' => 'g' | 'H' => 'h' | 'I' => 'i' | 'J' => 'j' | 'K' => 'k' | 'L' => 'l'
  | 'M' => 'm' | 'N' => 'n' | 'O' => 'o' | 'P' => 'p' | 'Q' => 'q' | 'R' => 'r'
  | 'S' => 's' | 'T' => 't' | 'U' => 'u' | 'V' => 'v' | 'W' => 'w' | 'X' => 'x'
  | 'Y' => 'y' | 'Z' => 'z'
  | 'Á' => 'á' | 'É' => 'é' | 'Í' => 'í' | 'Ó' => 'ó' | 'Ú' => 'ú'
  | 'Ü' => 'ü' | 'Ñ' => 'ñ'
  | c => c

/-- Python `str.upper` (and the title-casing used by `str.capitalize`) on the
same repertoire. -/
def upperChar : Char → Char
  | 'a' => 'A' | 'b' => 'B' | 'c' => 'C' | 'd' => 'D' | 'e' => 'E' | 'f' => 'F'
  | 'g' => 'G' | 'h' => 'H' | 'i' => 'I' | 'j' => 'J' | 'k' => 'K' | 'l' => 'L'
  | 'm' => 'M' | 'n' => 'N' | 'o' => 'O' | 'p' => 'P' | 'q' => 'Q' | 'r' => 'R'
  | 's' => 'S' | 't' => 'T' | 'u' => 'U' | 'v' => 'V' | 'w' => 'W' | 'x' => 'X'
  | 'y' => 'Y' | 'z' => 'Z'
  | 'á' => 'Á' | 'é' => 'É' | 'í' => 'Í' | 'ó' => 'Ó' | 'ú' => 'Ú'
  | 'ü' => 'Ü' | 'ñ' => 'Ñ'
  | c => c

/-- Python `\w` (Unicode word character): alphanumerics and underscore, again
on the modelled repertoire (including `²` and `º`, which Python classifies as
alphanumeric). -/
def isWordChar (c : Char) : Bool :=
  c.isAlpha || c.isDigit || c = '_' ||
  c = 'á' || c = 'é' || c = 'í' || c = 'ó' || c = 'ú' || c = 'ü' || c = 'ñ' ||
  c = 'Á' || c = 'É' || c = 'Í' || c = 'Ó' || c = 'Ú' || c = 'Ü' || c = 'Ñ' ||
  c = '²' || c = 'º'

/-- Python `str.lower` on a whole string. -/
def lowerStr (s : Str) : Str := s.map lowerChar

/-- Python `str.capitalize`: first character title-cased, the rest lowered. -/
def capitalizeStr : Str → Str
  | [] => []
  | c :: cs => upperChar c :: cs.map lowerChar

/-- Python `str.strip()` from the left. -/
def stripLeft (s : Str) : Str := s.dropWhile isPySpace

/-- Python `str.strip()`: whitespace removed from both ends. -/
def pyStrip (s : Str) : Str := ((stripLeft s).reverse.dropWhile isPySpace).reverse

/-- Removal of the invisible marks, the first step of both cleaning
functions (`re.sub(r'[​-‍⁠﻿]', '', text)`). -/
def stripInvisible (s : Str) : Str := s.filter (fun c => !isInvisible c)

/-- The regex substitution `re.sub(r'\s+', ' ', text)`: every maximal
whitespace run becomes a single space. -/
def collapseWs : Str → Str
  | [] => []
  | [c] => if isPySpace c then [' '] else [c]
  | c :: c' :: rest =>
    if isPySpace c then
      if isPySpace c' then collapseWs (c' :: rest)
      else ' ' :: collapseWs (c' :: rest)
    else c :: collapseWs (c' :: rest)

/-- `_clean_text`: strip invisible marks, collapse every whitespace run
(including newlines and tabs) to one space, and trim.  The `if not text`
short-circuit in the source returns `""`, which coincides with running the
pipeline on the empty string. -/
def cleanText (s : Str) : Str := pyStrip (collapseWs (stripInvisible s))

/-- Python `str.split('\n')`: split at every newline, keeping empty pieces. -/
def splitNl : Str → List Str
  | [] => [[]]
  | c :: rest =>
    if c = '\n' then [] :: splitNl rest
    else
      match splitNl rest with
      | [] => [[c]]
      | l :: ls => (c :: l) :: ls

/-- Python `'\n'.join(lines)`. -/
def joinNl (ls : List Str) : Str := (ls.intersperse ['\n']).flatten

/-- Helper for `re.sub(r'\n{3,}', '\n\n', text)`: `run` counts the newlines
of the current run that have already been read. -/
def collapseNlAux (run : Nat) : Str → Str
  | [] => List.replicate (if 3 ≤ run then 2 else run) '\n'
  | c :: rest =>
    if c = '\n' then collapseNlAux (run + 1) rest
    else List.replicate (if 3 ≤ run then 2 else run) '\n' ++ (c :: collapseNlAux 0 rest)

/-- `re.sub(r'\n{3,}', '\n\n', text)`: every run of three or more newlines is
replaced by exactly two. -/
def collapseNl (s : Str) : Str := collapseNlAux 0 s

/-- `_clean_description_text`: strip invisible marks; per physical line
collapse horizontal whitespace and trim; rejoin with `\n`; collapse runs of
three or more newlines to two; trim the whole result. -/
def cleanDescriptionText (s : Str) : Str :=
  pyStrip (collapseNl (joinNl ((splitNl (stripInvisible s)).map
    (fun line => pyStrip (collapseWs line)))))

/-- Numeric value of a digit string, most significant digit first. -/
def digitsToNat (ds : Str) : Nat := ds.foldl (fun n c => n * 10 + (c.toNat - 48)) 0

/-- `_extract_number`: drop every comma, then take the first match of
`(\d+\.?\d*)` - the leftmost maximal digit run, an optional dot, and a
following digit run - read as a decimal number (Python `float`, modelled
exactly as a rational, built through `mkRat` so that it evaluates in the
kernel). Returns `none` when no digit occurs. -/
def extractNumber (s : Str) : Option Rat :=
  let t := (s.filter (fun c => c ≠ ',')).dropWhile (fun c => !c.isDigit)
  if t = [] then none
  else
    let ds₁ := t.takeWhile Char.isDigit
    let rest := t.dropWhile Char.isDigit
    let ds₂ := match rest with
      | '.' :: r => r.takeWhile Char.isDigit
      | _ => []
    some (mkRat (digitsToNat (ds₁ ++ ds₂)) (10 ^ ds₂.length))

/-- Python `int()` on a float: truncation toward zero.  (The sign test is on
the numerator, which determines the sign of the rational.) -/
def ratTrunc (q : Rat) : Int := if 0 ≤ q.num then ⌊q⌋ else ⌈q⌉

/-- Comparison `v ≤ z` of a rational against an integer, computed on the
numerator so that it reduces in the kernel (the standard `Rat` order
operations are irreducible). -/
def ratLeI (v : Rat) (z : Int) : Bool := decide (v.num ≤ z * (v.den : Int))

/-- Comparison `z ≤ v`. -/
def ratGeI (v : Rat) (z : Int) : Bool := decide (z * (v.den : Int) ≤ v.num)

/-- Comparison `v < z`. -/
def ratLtI (v : Rat) (z : Int) : Bool := decide (v.num < z * (v.den : Int))

/-- Comparison `z < v`. -/
def ratGtI (v : Rat) (z : Int) : Bool := decide (z * (v.den : Int) < v.num)

/-- The difference `z - v` of an integer and a rational, built through
`mkRat` so that it evaluates in the kernel. -/
def intSubRat (z : Int) (v : Rat) : Rat := mkRat (z * v.den - v.num) v.den

/-- `_calculate_construction_year`, parameterised by the scraper's reference
year (`self.current_year`, set to 2025 in `__init__`): falsy (zero) input
gives `None`; a value in `[1900, year+2]` is an absolute year, truncated to
`int`; a value in `(0, 100)` is an age, giving `int(year - value)`; anything
else gives `None`. -/
def calcYear (v : Rat) (year : Int) : Option Int :=
  if v.num = 0 then none
  else if ratGeI v 1900 && ratLeI v (year + 2) then some (ratTrunc v)
  else if ratGtI v 0 && ratLtI v 100 then some (ratTrunc (intSubRat year v))
  else none

/-- Modelled from the spec: `infer_construction_year` as §4.1 words it - an
absolute year in `[1900, current_year+2]` is returned as an integer, a value
in `(0,100)` is treated as an age giving `current_year - value` (truncated to
an integer, which is where the spec sentence and the code differ on
non-integer ages), otherwise absent.  Used as the claim-side reference for
C4. -/
def inferConstructionYearSpec (v : Rat) (year : Int) : Option Int :=
  if 1900 ≤ v ∧ v ≤ (year : Rat) + 2 then some (ratTrunc v)
  else if 0 < v ∧ v < 100 then some (ratTrunc ((year : Rat) - v))
  else none

/-- The values a field of the scraped record can hold: a number (Python
`int`/`float`), a string, a list of strings (amenity/section lists), a
mapping from strings to booleans (the `caracteristicas_adicionales` flags),
or Python `None`. -/
inductive Value where
  | num (q : Rat)
  | vstr (s : Str)
  | vlist (l : List Str)
  | flags (m : List (Str × Bool))
  | null
deriving DecidableEq

/-- The membership test of the final pruning,
`v in [None, [], "", {}]` - Python equality against each listed empty. -/
def Value.isEmpty : Value → Bool
  | .null => true
  | .vstr s => s = []
  | .vlist l => l = []
  | .flags m => m = []
  | .num _ => false

/-- Python dicts are modelled as insertion-ordered association lists with
unique keys. -/
abbrev Dict (α : Type) := List (Str × α)

/-- Lookup of the (first) binding of a key. -/
def dlookup {α : Type} : Dict α → Str → Option α
  | [], _ => none
  | (k', v) :: rest, k => if k' = k then some v else dlookup rest k

/-- Python dict assignment `d[k] = v`: replace in place when the key exists
(keeping its position), append otherwise. -/
def dinsert {α : Type} : Dict α → Str → α → Dict α
  | [], k, v => [(k, v)]
  | (k', v') :: rest, k, v =>
    if k' = k then (k', v) :: rest else (k', v') :: dinsert rest k v

/-- Python `d.pop(k, default)` / `del d[k]`: the removed value (if any) and
the remaining dict. -/
def dpop {α : Type} : Dict α → Str → Option α × Dict α
  | [], _ => (none, [])
  | (k', v) :: rest, k =>
    if k' = k then (some v, rest)
    else
      let p := dpop rest k
      (p.1, (k', v) :: p.2)

/-- Python `d1.update(d2)`: assign every binding of `d2` into `d1`, in
order. -/
def dupdate {α : Type} (d₁ d₂ : Dict α) : Dict α :=
  d₂.foldl (fun acc kv => dinsert acc kv.1 kv.2) d₁

/-- The keys of a dict, in insertion order. -/
def dkeys {α : Type} (d : Dict α) : List Str := d.map (·.1)

/-- Python `substring in s`. -/
def containsSub : Str → Str → Bool
  | [], pat => pat = []
  | c :: t, pat => pat.isPrefixOf (c :: t) || containsSub t pat

/-- Python `s.replace(' ', '_')`. -/
def spacesToUnderscores (s : Str) : Str :=
  s.map (fun c => if c = ' ' then '_' else c)

/-- The key normalisation used throughout the scraper:
`text.lower().replace(' ', '_')`. -/
def normKey (s : Str) : Str := spacesToUnderscores (lowerStr s)

/-- `_parse_main_summary`, with the DOM part abstracted away: a summary item
is the raw text of its muted label together with the raw sibling text
collected for the value.  The map keys each item by the cleaned,
lowercased, underscore-joined label and stores `_extract_number` of the
cleaned value text (possibly `None`). -/
def parseMainSummary (items : List (Str × Str)) : Dict Value :=
  items.foldl
    (fun data item =>
      let key := normKey (cleanText item.1)
      let v := match extractNumber (cleanText item.2) with
        | some q => Value.num q
        | none => Value.null
      dinsert data key v)
    []

/-- A detail cell of `_parse_details_and_features`, abstracted at the point
where the source has finished its DOM navigation (lines 133-162): the
extracted `key_text` and `value_text` strings.  An absent value is the empty
string, exactly as in the source. -/
structure Cell where
  keyText : Str
  valueText : Str
deriving DecidableEq

/-- The running state of the detail-extraction loop: the structured field
map `data`, the bare-amenity list, and the ordered narrative fragments. -/
structure DetailState where
  data : Dict Value
  amenities : List Str
  parts : List Str
deriving DecidableEq

/-- One iteration of the detail loop (source lines 164-195). -/
def detailStep (st : DetailState) (cell : Cell) : DetailState :=
  if cell.keyText = [] then st
  else
    let keyN := normKey cell.keyText
    let isExcluded := containsSub keyN (str "precio") || containsSub keyN (str "operacion") ||
      containsSub keyN (str "cuota")
    let parts :=
      if isExcluded then st.parts
      else if cell.valueText ≠ [] then
        st.parts ++ [lowerStr cell.keyText ++ [' '] ++ lowerStr cell.valueText]
      else st.parts ++ [lowerStr cell.keyText]
    if cell.valueText ≠ [] then
      let data :=
        if containsSub keyN (str "precio_de_venta") then
          dinsert st.data (str "operacion") (Value.vstr (str "Venta"))
        else if containsSub keyN (str "precio_de_renta") then
          dinsert st.data (str "operacion") (Value.vstr (str "Renta"))
        else if !containsSub keyN (str "precio") then
          dinsert st.data keyN
            (match extractNumber cell.valueText with
             | some q => Value.num q
             | none => Value.vstr cell.valueText)
        else st.data
      { st with data := data, parts := parts }
    else
      { st with amenities := st.amenities ++ [cell.keyText], parts := parts }

/-- Order-preserving deduplication, Python `list(dict.fromkeys(xs))`: keep
the first occurrence of each element. -/
def dedupFirstAux (seen : List Str) : List Str → List Str
  | [] => []
  | x :: xs => if x ∈ seen then dedupFirstAux seen xs else x :: dedupFirstAux (x :: seen) xs

/-- Order-preserving deduplication (first occurrences kept). -/
def dedupFirst (l : List Str) : List Str := dedupFirstAux [] l

/-- Python `', '.join(parts)`. -/
def joinCommaSpace (parts : List Str) : Str := (parts.intersperse (str ", ")).flatten

/-- Helper for `rfind`: the index (counted from `i`) of the last occurrence
of `", "` in the remaining characters. -/
def rfindCSAux : List Char → Nat → Option Nat
  | [], _ => none
  | c :: t, i =>
    match rfindCSAux t (i + 1) with
    | some j => some j
    | none => if c = ',' ∧ t.head? = some ' ' then some i else none

/-- `text.rfind(', ')`: index of the last occurrence of `", "`, or `none`. -/
def rfindCommaSpace (s : Str) : Option Nat := rfindCSAux s 0

/-- Source lines 202-207: join the fragments with `", "` and replace the
last `", "` (if any) with `" y "`. -/
def joinWithFinalY (parts : List Str) : Str :=
  let t := joinCommaSpace parts
  match rfindCommaSpace t with
  | some i => t.take i ++ str " y " ++ t.drop (i + 2)
  | none => t

/-- The narrative sentence of lines 198-209, for a non-empty fragment
list. -/
def narrativeSentence (parts : List Str) : Str :=
  str "La propiedad cuenta con " ++ joinWithFinalY (dedupFirst parts)

/-- The structured map after the narrative consolidation of lines 197-209:
when any fragments were collected, `descripcion_amenidades` holds the
narrative sentence. -/
def detailNarrativeData (st : DetailState) : Dict Value :=
  if st.parts ≠ [] then
    dinsert st.data (str "descripcion_amenidades") (Value.vstr (narrativeSentence st.parts))
  else st.data

/-- `_parse_details_and_features` after the cell loop: narrative
consolidation (lines 197-209) and the bare-amenity save with its
already-structured-key filter (lines 211-214). -/
def detailsFinish (st : DetailState) : Dict Value :=
  let data := detailNarrativeData st
  if st.amenities ≠ [] then
    let filtered := st.amenities.filter (fun a => dlookup data (normKey a) = none)
    dinsert data (str "amenidades_estructurales") (Value.vlist filtered)
  else data

/-- `_parse_details_and_features` over the abstracted cell list. -/
def parseDetails (cells : List Cell) : Dict Value :=
  detailsFinish (cells.foldl detailStep ⟨[], [], []⟩)

/-- The bullet glyph class `[•*>-]` of the segmenter's preprocessing. -/
def bulletClass (c : Char) : Bool := c = '•' || c = '*' || c = '>' || c = '-'

/-- Scanning part of `re.sub(r'(?<!^)\s*([•*>-])', r'\n\1', text)` for
positions strictly after the start: `pend` holds the whitespace run read so
far (reversed).  A bullet ending the run replaces run-plus-bullet by a
newline and the bullet; otherwise the run is emitted unchanged. -/
def subBulletsAux (pend : Str) : Str → Str
  | [] => pend.reverse
  | c :: rest =>
    if isPySpace c then subBulletsAux (c :: pend) rest
    else if bulletClass c then '\n' :: c :: subBulletsAux [] rest
    else pend.reverse ++ c :: subBulletsAux [] rest

/-- `re.sub(r'(?<!^)\s*([•*>-])', r'\n\1', text)`: insert a line break
before every bullet glyph (consuming preceding whitespace), except that no
match may start at position 0. -/
def subBullets : Str → Str
  | [] => []
  | c :: rest => c :: subBulletsAux [] rest

/-- Preprocessing of `_parse_description_heuristics` (lines 243-247): strip
invisible marks; if the stripped text has no newline but contains a bullet
glyph, break it at bullet glyphs. -/
def preprocessDesc (raw : Str) : Str :=
  let s := stripInvisible raw
  if !(pyStrip s).contains '\n' && s.any bulletClass then subBullets s else s

/-- The physical lines the segmenter iterates over. -/
def segLines (raw : Str) : List Str := splitNl (preprocessDesc raw)

/-- `re.sub(r'^[•*>]', '-', line_stripped)`: normalise one leading bullet
glyph (`-` is already `-` and not in this class). -/
def bulletNorm : Str → Str
  | [] => []
  | c :: rest => if c = '•' || c = '*' || c = '>' then '-' :: rest else c :: rest

/-- Characters matched by `[\w\s]`. -/
def isWordSpace (c : Char) : Bool := isWordChar c || isPySpace c

/-- Whether a suffix matches `\s*[:]?$`: all whitespace, or all whitespace
followed by one final colon. -/
def wsColonSuffix (s : Str) : Bool :=
  s.all isPySpace || (!s.isEmpty && s.dropLast.all isPySpace && s.getLast? = some ':')

/-- Group 1 of `re.match(r'^([\w\s]{2,40}?)\s*[:]?$', text)`.  The lazy
quantifier takes the least `k` between 2 and 40 such that the first `k`
characters are word/space characters and the remainder matches
`\s*[:]?$`. -/
def headerGroup1 (tc : Str) : Option Str :=
  (List.range 39).foldl
    (fun acc i =>
      match acc with
      | some g => some g
      | none =>
        let k := i + 2
        if k ≤ tc.length && (tc.take k).all isWordSpace && wsColonSuffix (tc.drop k)
        then some (tc.take k) else none)
    none

/-- Case-insensitive "matches at the start" test, Python
`re.match(pattern_literal, s, re.IGNORECASE)`. -/
def startsCI (pat s : Str) : Bool := (lowerStr pat).isPrefixOf (lowerStr s)

/-- The alternation of the second header pattern, in source order. -/
def headerAlts : List Str :=
  [str "Cercanias", str "Cercanías", str "Planta Alta", str "Planta Baja",
   str "Equipamiento", str "Distribución", str "Servicios en la zona"]

/-- Group 1 of the second header pattern
`^(Cercanias|Cercanías|Planta Alta|Planta Baja|Equipamiento|Distribución|Servicios en la zona).*$`
(case-insensitive): the input's own characters covering the first matching
alternative. -/
def headerGroup2 (tc : Str) : Option Str :=
  headerAlts.foldl
    (fun acc alt =>
      match acc with
      | some g => some g
      | none => if startsCI alt tc then some (tc.take alt.length) else none)
    none

/-- `_find_header`: run both header patterns on the single-line-cleaned
text; the result is the matched group 1 (the header text). -/
def findHeader (line : Str) : Option Str :=
  let tc := cleanText line
  match headerGroup1 tc with
  | some g => some g
  | none => headerGroup2 tc

/-- Python `str.rstrip(':')`. -/
def rstripColon (s : Str) : Str := (s.reverse.dropWhile (· = ':')).reverse

/-- Group 1 of `re.match(r'^-\s*(.+)', line)`: after the dash, the greedy
`\s*` takes the whole whitespace run unless nothing would remain for `.+`,
in which case it backtracks one character. -/
def itemMatch : Str → Option Str
  | '-' :: rest =>
    if rest = [] then none
    else
      let r := rest.dropWhile isPySpace
      if r ≠ [] then some r
      else
        match rest.getLast? with
        | some c => some [c]
        | none => none
  | _ => none

/-- Helper for Python `str.split()`: accumulate the current word
(reversed), breaking at whitespace and dropping empty pieces. -/
def wordsAux (cur : Str) : Str → List Str
  | [] => if cur = [] then [] else [cur.reverse]
  | c :: rest =>
    if isPySpace c then
      if cur = [] then wordsAux [] rest else cur.reverse :: wordsAux [] rest
    else wordsAux (c :: cur) rest

/-- Python `str.split()` with no arguments. -/
def pyWords (s : Str) : List Str := wordsAux [] s

/-- The default section bucket of the segmenter. -/
def defaultSection : Str := str "amenidades_extraidas"

/-- The segmenter's state: the ordered mapping of section lists, the
current section, and the keyword flags. -/
structure SegState where
  sections : Dict (List Str)
  current : Str
  flags : List (Str × Bool)
deriving DecidableEq

/-- Initial segmenter state (source lines 234-237). -/
def segInit : SegState := ⟨[(defaultSection, [])], defaultSection, []⟩

/-- `data[current_section].append(item)`: extend the list bound to `k` in
place. -/
def appendItem (sections : Dict (List Str)) (k : Str) (item : Str) : Dict (List Str) :=
  sections.map (fun kv => if kv.1 = k then (kv.1, kv.2 ++ [item]) else kv)

/-- The keyword test on a line: `"*precio a tratar*" in lc or
"precio a tratar" in lc or "precio negociable" in lc` over the lowercased
single-line-cleaned stripped line. -/
def kwPrecioLine (lineRaw : Str) : Bool :=
  let lcl := lowerStr (cleanText (pyStrip lineRaw))
  containsSub lcl (str "*precio a tratar*") || containsSub lcl (str "precio a tratar") ||
    containsSub lcl (str "precio negociable")

/-- The `"no paga mantenimiento"` keyword test on a line. -/
def kwMantLine (lineRaw : Str) : Bool :=
  containsSub (lowerStr (cleanText (pyStrip lineRaw))) (str "no paga mantenimiento")

/-- Whether a line is marked keyword-only by the segmenter
(`is_keyword_line`). -/
def isKeywordLine (lineRaw : Str) : Bool := kwPrecioLine lineRaw || kwMantLine lineRaw

/-- The keyword-scan flag updates of lines 255-263 for one line. -/
def stepFlags (flags : List (Str × Bool)) (lineRaw : Str) : List (Str × Bool) :=
  let f := if kwPrecioLine lineRaw then dinsert flags (str "precio_negociable") true else flags
  if kwMantLine lineRaw then dinsert f (str "no_paga_mantenimiento") true else f

/-- One iteration of the segmenter loop (source lines 250-296). -/
def stepLine (st : SegState) (lineRaw : Str) : SegState :=
  let ls := pyStrip lineRaw
  if ls = [] then st
  else
    let lc := cleanText ls
    let flags := stepFlags st.flags lineRaw
    let isKw := isKeywordLine lineRaw
    let ln := bulletNorm ls
    match findHeader ln with
    | some g =>
      let ht := pyStrip (rstripColon g)
      let sec :=
        if startsCI (str "Cercanias") ht || startsCI (str "Cercanías") ht ||
            startsCI (str "Servicios en la zona") ht then str "cercanias"
        else if startsCI (str "Equipamiento") ht then str "equipamiento"
        else normKey (cleanText ht)
      let sections :=
        if (dlookup st.sections sec).isSome then st.sections else st.sections ++ [(sec, [])]
      ⟨sections, sec, flags⟩
    | none =>
      match itemMatch ln with
      | some g =>
        let item := cleanText g
        if item ≠ [] ∧ !isKw then ⟨appendItem st.sections st.current item, st.current, flags⟩
        else ⟨st.sections, st.current, flags⟩
      | none =>
        if (pyWords lc).length < 15 ∧ st.current ≠ defaultSection then
          if lc ≠ [] ∧ !isKw then ⟨appendItem st.sections st.current lc, st.current, flags⟩
          else ⟨st.sections, st.current, flags⟩
        else ⟨st.sections, st.current, flags⟩

/-- The canonical section names of the post-pass. -/
def knownSections : List Str :=
  [str "cercanias", str "planta_baja", str "planta_alta", str "equipamiento"]

/-- The loose section-key folding of lines 309-311. -/
def heurNormSection (k : Str) : Str :=
  if containsSub k (str "cercania") then str "cercanias"
  else if containsSub k (str "planta_baja") then str "planta_baja"
  else if containsSub k (str "planta_alta") then str "planta_alta"
  else k

/-- Storing a recognised section into the final dict (lines 313-317):
extend in place on a collision, append otherwise. -/
def heurStore (fd : Dict Value) (nk : Str) (items : List Str) : Dict Value :=
  match dlookup fd nk with
  | some (Value.vlist old) => dinsert fd nk (Value.vlist (old ++ items))
  | some _ => fd
  | none => fd ++ [(nk, Value.vlist items)]

/-- One iteration of the post-pass over the remaining sections (source
lines 306-319): the accumulator is the final dict under construction and
the default-bucket amenity list. -/
def heurFoldStep (acc : Dict Value × List Str) (kv : Str × List Str) : Dict Value × List Str :=
  if kv.2 = [] then acc
  else
    let nk := heurNormSection kv.1
    if nk ∈ knownSections then (heurStore acc.1 nk kv.2, acc.2)
    else (acc.1, acc.2 ++ kv.2)

/-- The consolidation of `_parse_description_heuristics` (lines 298-325):
flags first, then fold the non-default sections, then the filtered default
bucket. -/
def heurFinish (st : SegState) : Dict Value :=
  let fd : Dict Value :=
    if st.flags ≠ [] then [(str "caracteristicas_adicionales", Value.flags st.flags)] else []
  let p := dpop st.sections defaultSection
  let r := p.2.foldl heurFoldStep (fd, (p.1.getD []))
  if r.2 ≠ [] then
    r.1 ++ [(str "amenidades_extraidas", Value.vlist (r.2.filter (fun a => 2 < a.length)))]
  else r.1

/-- `_parse_description_heuristics`: falsy input returns the initial
`{'amenidades_extraidas': []}` dict; otherwise run the line loop and the
post-pass. -/
def parseDescriptionHeuristics (raw : Str) : Dict Value :=
  if raw = [] then [(defaultSection, Value.vlist [])]
  else heurFinish ((segLines raw).foldl stepLine segInit)

/-- A listing page, abstracted at the DOM boundary of
`parse_property_html`: the source URL and, for each BeautifulSoup locator
of the source, the raw text it would return (`none` when the element is
absent).  `summaryItems` are the label/value raw-text pairs of
`_parse_main_summary`'s items, `detailCells` the extracted key/value texts
of `_parse_details_and_features`' cells, and `descriptionRaw` the
line-break-preserving description text (from the description element or the
meta-tag fallback). -/
structure Page where
  url : Str
  titulo : Option Str
  subtitulo : Option Str
  direccion : Option Str
  priceText : Option Str
  summaryItems : List (Str × Str)
  detailCells : List Cell
  descriptionRaw : Option Str

/-- The currency detection of line 351:
`'MXN' if 'mxn' in price_text.lower() else ('USD' if 'usd' in ... else None)`. -/
def monedaOf (priceClean : Str) : Value :=
  if containsSub (lowerStr priceClean) (str "mxn") then Value.vstr (str "MXN")
  else if containsSub (lowerStr priceClean) (str "usd") then Value.vstr (str "USD")
  else Value.null

/-- `Option Rat` to the stored value (`None` when extraction failed). -/
def numOrNull : Option Rat → Value
  | some q => Value.num q
  | none => Value.null

/-- The identity and price stage of `parse_property_html` (lines 333-351):
url, cleaned title/subtitle/address (each `None` when the element is
absent), and - only when the price block exists - the extracted price and
detected currency. -/
def baseData (page : Page) : Dict Value :=
  let d : Dict Value := [(str "url", Value.vstr page.url)]
  let d := dinsert d (str "titulo")
    (match page.titulo with | some t => Value.vstr (cleanText t) | none => Value.null)
  let d := dinsert d (str "subtitulo")
    (match page.subtitulo with | some t => Value.vstr (cleanText t) | none => Value.null)
  let d := dinsert d (str "direccion")
    (match page.direccion with | some t => Value.vstr (cleanText t) | none => Value.null)
  match page.priceText with
  | some pt =>
    let ptc := cleanText pt
    let d := dinsert d (str "precio") (numOrNull (extractNumber ptc))
    dinsert d (str "moneda") (monedaOf ptc)
  | none => d

/-- The merged dict after `data.update(self._parse_main_summary(...))`
(line 354). -/
def afterSummary (page : Page) : Dict Value :=
  dupdate (baseData page) (parseMainSummary page.summaryItems)

/-- The merged dict after `data.update(self._parse_details_and_features(...))`
(line 355). -/
def afterDetails (page : Page) : Dict Value :=
  dupdate (afterSummary page) (parseDetails page.detailCells)

/-- The description text the orchestrator works with; Python truthiness
makes an empty string equivalent to an absent one. -/
def descText (page : Page) : Option Str :=
  match page.descriptionRaw with
  | some raw => if raw = [] then none else some raw
  | none => none

/-- The merged dict after `data.update(self._parse_description_heuristics(...))`
(line 376); unchanged when there is no description. -/
def afterHeuristics (page : Page) : Dict Value :=
  match descText page with
  | some raw => dupdate (afterDetails page) (parseDescriptionHeuristics raw)
  | none => afterDetails page

/-- The merged dict after storing the cleaned description (line 380); the
input to the consolidation stage. -/
def mergedData (page : Page) : Dict Value :=
  match descText page with
  | some raw =>
    dinsert (afterHeuristics page) (str "descripcion") (Value.vstr (cleanDescriptionText raw))
  | none => afterHeuristics page

/-- The value stored under a key when it is a list, else `[]`; used for the
amenity pops of the consolidation.  This is faithful to lines 385-387 only
when the popped key is absent or holds a list: on any other value the
program never reaches the `amenidades` store - a non-list under a popped
amenity key raises at the `extend` call (`TypeError`/`AttributeError`, so
the page is reported upstream as an error and no record is returned), and
a string is iterated character by character - paths this embedding does
not model.  Theorems about the amenity pipeline therefore restrict those
keys with `isListish`. -/
def listOrNil : Option Value → List Str
  | some (Value.vlist l) => l
  | _ => []

/-- The lookups on which the amenity pops of lines 385-387 are modelled
faithfully: the key is absent, or holds a list.  Any other value makes
the program raise (non-iterable `extend`) or char-iterate a string,
which `listOrNil` does not model. -/
def isListish : Option Value → Bool
  | some (Value.vlist _) => true
  | none => true
  | _ => false

/-- The three amenity sources of the consolidation (lines 385-389), read
off a merged dict in pop order: the structural bare-amenity list, the
heuristic default bucket, and the `equipamiento` section when it is a
list. -/
def allAmenities (d : Dict Value) : List Str :=
  listOrNil (dlookup d (str "amenidades_estructurales")) ++
    listOrNil (dlookup d (str "amenidades_extraidas")) ++
    (match dlookup d (str "equipamiento") with
     | some (Value.vlist l) => l
     | _ => [])

/-- The amenity normalisation pipeline of lines 393-396: keep truthy
entries, clean and capitalize each, deduplicate (`set`), sort
(`sorted`). -/
def amenPipeline (all : List Str) : List Str :=
  List.insertionSort (· ≤ ·)
    (dedupFirst ((all.filter (fun a => a ≠ [])).map (fun a => capitalizeStr (cleanText a))))

/-- The three pops of the amenity fusion (lines 385-389): the collected
amenity list and the dict with the consumed keys removed.  Via `listOrNil`
this silently contributes no entries for a non-list under
`amenidades_estructurales` or `amenidades_extraidas`, where the program
instead raises or char-iterates a string (see `listOrNil`); it is faithful
on dicts whose lookups at those two keys satisfy `isListish`.  The
`equipamiento` pop is guarded by an `isinstance(..., list)` check in the
source and needs no such restriction. -/
def fusePops (d : Dict Value) : List Str × Dict Value :=
  let p₁ := dpop d (str "amenidades_estructurales")
  let all₁ := listOrNil p₁.1
  let st₂ :=
    if (dlookup p₁.2 (str "amenidades_extraidas")).isSome then
      let p₂ := dpop p₁.2 (str "amenidades_extraidas")
      (all₁ ++ listOrNil p₂.1, p₂.2)
    else (all₁, p₁.2)
  match dlookup st₂.2 (str "equipamiento") with
  | some (Value.vlist l) => (st₂.1 ++ l, (dpop st₂.2 (str "equipamiento")).2)
  | _ => st₂

/-- The amenity-fusion step of the consolidation (lines 385-396): pop the
three sources and, when anything was collected, store the normalised
`amenidades` list. -/
def fuseAmenities (d : Dict Value) : Dict Value :=
  let st := fusePops d
  if st.1 ≠ [] then dinsert st.2 (str "amenidades") (Value.vlist (amenPipeline st.1))
  else st.2

/-- The construction-year step (lines 399-400): a numeric
`año_de_construcción` is replaced by `_calculate_construction_year` of it
(with the scraper's reference year 2025). -/
def fixYear (d : Dict Value) : Dict Value :=
  match dlookup d (str "año_de_construcción") with
  | some (Value.num v) =>
    dinsert d (str "año_de_construcción")
      (match calcYear v 2025 with | some y => Value.num (y : Rat) | none => Value.null)
  | _ => d

/-- The static `key_mapping` of lines 403-408. -/
def keyMapping (k : Str) : Str :=
  if k = str "terreno" then str "m²_terreno"
  else if k = str "construcción" then str "m²_construcción"
  else if k = str "tipo" then str "tipo_propiedad"
  else if k = str "edo._conservación" then str "edo_conservacion"
  else k

/-- One iteration of the synonym-renaming loop (lines 410-419): on a
collision the first binding wins unless it is `None` and the new value is
not. -/
def renameStep (acc : Dict Value) (kv : Str × Value) : Dict Value :=
  let fk := keyMapping kv.1
  match dlookup acc fk with
  | some old =>
    if kv.2 ≠ Value.null ∧ old = Value.null then dinsert acc fk kv.2 else acc
  | none => acc ++ [(fk, kv.2)]

/-- The synonym-renaming pass. -/
def renameKeys (d : Dict Value) : Dict Value := d.foldl renameStep []

/-- The final pruning (line 422): drop every binding whose value is
`None`, `""`, `[]` or `{}`. -/
def pruneEmpty (d : Dict Value) : Dict Value := d.filter (fun kv => !kv.2.isEmpty)

/-- The consolidation stage of `parse_property_html` (lines 382-422). -/
def consolidate (d : Dict Value) : Dict Value :=
  pruneEmpty (renameKeys (fixYear (fuseAmenities d)))

/-- `parse_property_html` over an abstracted page: the merge stages
followed by the consolidation; the result is the PropertyRecord. -/
def parsePropertyHtml (page : Page) : Dict Value :=
  consolidate (mergedData page)

/-- The string a segmenter line would contribute to the current section if
it is emitted at all, independent of the segmenter state: `none` for blank
lines and headers; the cleaned post-dash text for bullet items; the cleaned
line for a potential loose item (under 15 words).  `stepLine` emits either
this string or nothing. -/
def candEmit (lineRaw : Str) : Option Str :=
  let ls := pyStrip lineRaw
  if ls = [] then none
  else
    let ln := bulletNorm ls
    match findHeader ln with
    | some _ => none
    | none =>
      match itemMatch ln with
      | some g =>
        let item := cleanText g
        if item ≠ [] then some item else none
      | none =>
        let lc := cleanText ls
        if (pyWords lc).length < 15 ∧ lc ≠ [] then some lc else none

/-- Lookup of a boolean flag inside the `caracteristicas_adicionales`
mapping of a record. -/
def flagLookup (d : Dict Value) (k : Str) : Option Bool :=
  match dlookup d (str "caracteristicas_adicionales") with
  | some (Value.flags m) => dlookup m k
  | _ => none

/-- All strings stored in section lists of a segmenter state, in order. -/
def allItemsSeg (sections : Dict (List Str)) : List Str :=
  sections.foldr (fun kv acc => kv.2 ++ acc) []

/-- No three consecutive newline characters occur in the string (the
normal form guaranteed by `\n{3,} → \n\n`). -/
def NoTripleNl (s : Str) : Prop :=
  ∀ i, ¬ (s.get? i = some '\n' ∧ s.get? (i + 1) = some '\n' ∧ s.get? (i + 2) = some '\n')

/-! Infrastructure lemmas about the dict model. -/

theorem dlookup_nil {α : Type} (k : Str) : dlookup ([] : Dict α) k = none := rfl

theorem dlookup_cons_self {α : Type} (k : Str) (v : α) (rest : Dict α) :
    dlookup ((k, v) :: rest) k = some v := by
  simp [dlookup]

theorem dlookup_cons_ne {α : Type} (k₀ k : Str) (v₀ : α) (rest : Dict α) (h : k₀ ≠ k) :
    dlookup ((k₀, v₀) :: rest) k = dlookup rest k := by
  simp [dlookup, h]

theorem dlookup_dinsert_self {α : Type} (d : Dict α) (k : Str) (v : α) :
    dlookup (dinsert d k v) k = some v := by
  induction d with
  | nil => simp [dinsert, dlookup]
  | cons kv rest ih =>
    obtain ⟨k', v'⟩ := kv
    by_cases h : k' = k
    · subst h
      simp [dinsert, dlookup]
    · rw [show dinsert ((k', v') :: rest) k v = (k', v') :: dinsert rest k v by
        simp [dinsert, h]]
      rw [dlookup_cons_ne k' k v' _ h, ih]

theorem dlookup_dinsert_ne {α : Type} (d : Dict α) (k k' : Str) (v : α) (h : k ≠ k') :
    dlookup (dinsert d k v) k' = dlookup d k' := by
  induction d with
  | nil => simp [dinsert, dlookup, h]
  | cons kv rest ih =>
    obtain ⟨k₀, v₀⟩ := kv
    by_cases h₀ : k₀ = k
    · subst h₀
      rw [show dinsert ((k₀, v₀) :: rest) k₀ v = (k₀, v) :: rest by simp [dinsert]]
      rw [dlookup_cons_ne k₀ k' v _ h, dlookup_cons_ne k₀ k' v₀ _ h]
    · rw [show dinsert ((k₀, v₀) :: rest) k v = (k₀, v₀) :: dinsert rest k v by
        simp [dinsert, h₀]]
      by_cases h₁ : k₀ = k'
      · subst h₁
        rw [dlookup_cons_self, dlookup_cons_self]
      · rw [dlookup_cons_ne k₀ k' _ _ h₁, dlookup_cons_ne k₀ k' v₀ _ h₁, ih]

theorem dkeys_dinsert_of_mem {α : Type} (d : Dict α) (k : Str) (v : α)
    (h : dlookup d k ≠ none) : dkeys (dinsert d k v) = dkeys d := by
  induction d with
  | nil => simp [dlookup] at h
  | cons kv rest ih =>
    obtain ⟨k₀, v₀⟩ := kv
    by_cases h₀ : k₀ = k
    · subst h₀
      simp [dinsert, dkeys]
    · rw [dlookup_cons_ne k₀ k v₀ rest h₀] at h
      rw [show dinsert ((k₀, v₀) :: rest) k v = (k₀, v₀) :: dinsert rest k v by
        simp [dinsert, h₀]]
      have := ih h
      simp only [dkeys, List.map_cons] at this ⊢
      rw [this]

theorem dkeys_dinsert_of_notMem {α : Type} (d : Dict α) (k : Str) (v : α)
    (h : dlookup d k = none) : dkeys (dinsert d k v) = dkeys d ++ [k] := by
  induction d with
  | nil => simp [dinsert, dkeys]
  | cons kv rest ih =>
    obtain ⟨k₀, v₀⟩ := kv
    by_cases h₀ : k₀ = k
    · subst h₀
      rw [dlookup_cons_self] at h
      exact absurd h (by simp)
    · rw [dlookup_cons_ne k₀ k v₀ rest h₀] at h
      rw [show dinsert ((k₀, v₀) :: rest) k v = (k₀, v₀) :: dinsert rest k v by
        simp [dinsert, h₀]]
      have := ih h
      simp only [dkeys, List.map_cons] at this ⊢
      rw [this]
      rfl

theorem dlookup_eq_none_iff {α : Type} (d : Dict α) (k : Str) :
    dlookup d k = none ↔ k ∉ dkeys d := by
  induction d with
  | nil => exact ⟨fun _ => List.not_mem_nil k, fun _ => rfl⟩
  | cons kv rest ih =>
    obtain ⟨k₀, v₀⟩ := kv
    by_cases h₀ : k₀ = k
    · subst h₀
      rw [dlookup_cons_self]
      constructor
      · intro h
        exact Option.noConfusion h
      · intro h
        exact absurd (show k₀ ∈ dkeys ((k₀, v₀) :: rest) from
          List.mem_cons_self k₀ (dkeys rest)) h
    · rw [dlookup_cons_ne k₀ k v₀ rest h₀]
      simp only [dkeys, List.map_cons, List.mem_cons]
      rw [ih]
      constructor
      · intro h hm
        rcases hm with hm | hm
        · exact h₀ hm.symm
        · exact h hm
      · intro h hm
        exact h (Or.inr hm)

theorem nodup_dkeys_dinsert {α : Type} (d : Dict α) (k : Str) (v : α)
    (h : (dkeys d).Nodup) : (dkeys (dinsert d k v)).Nodup := by
  by_cases hk : dlookup d k = none
  · rw [dkeys_dinsert_of_notMem d k v hk]
    simpa [List.nodup_append] using ⟨h, (dlookup_eq_none_iff d k).mp hk⟩
  · rw [dkeys_dinsert_of_mem d k v hk]
    exact h

theorem nodup_dkeys_dupdate {α : Type} (d₁ d₂ : Dict α) (h : (dkeys d₁).Nodup) :
    (dkeys (dupdate d₁ d₂)).Nodup := by
  induction d₂ generalizing d₁ with
  | nil => exact h
  | cons kv rest ih => exact ih (dinsert d₁ kv.1 kv.2) (nodup_dkeys_dinsert d₁ kv.1 kv.2 h)

theorem dlookup_dupdate_of_none {α : Type} (d₁ d₂ : Dict α) (k : Str)
    (h : dlookup d₂ k = none) : dlookup (dupdate d₁ d₂) k = dlookup d₁ k := by
  induction d₂ generalizing d₁ with
  | nil => rfl
  | cons kv rest ih =>
    obtain ⟨k₀, v₀⟩ := kv
    by_cases h₀ : k₀ = k
    · subst h₀
      rw [dlookup_cons_self] at h
      exact absurd h (by simp)
    · rw [dlookup_cons_ne k₀ k v₀ rest h₀] at h
      rw [show dupdate d₁ ((k₀, v₀) :: rest) = dupdate (dinsert d₁ k₀ v₀) rest from rfl,
        ih (dinsert d₁ k₀ v₀) h, dlookup_dinsert_ne d₁ k₀ k v₀ h₀]

theorem dlookup_dupdate_of_some {α : Type} (d₁ d₂ : Dict α) (k : Str) (v : α)
    (hnd : (dkeys d₂).Nodup) (h : dlookup d₂ k = some v) :
    dlookup (dupdate d₁ d₂) k = some v := by
  induction d₂ generalizing d₁ with
  | nil => simp [dlookup] at h
  | cons kv rest ih =>
    obtain ⟨k₀, v₀⟩ := kv
    simp only [dkeys, List.map_cons, List.nodup_cons] at hnd
    by_cases h₀ : k₀ = k
    · subst h₀
      rw [dlookup_cons_self] at h
      have hv : v₀ = v := by injection h
      subst hv
      have hrest : dlookup rest k₀ = none := (dlookup_eq_none_iff rest k₀).mpr hnd.1
      rw [show dupdate d₁ ((k₀, v₀) :: rest) = dupdate (dinsert d₁ k₀ v₀) rest from rfl,
        dlookup_dupdate_of_none (dinsert d₁ k₀ v₀) rest k₀ hrest,
        dlookup_dinsert_self]
    · rw [dlookup_cons_ne k₀ k v₀ rest h₀] at h
      exact ih (dinsert d₁ k₀ v₀) hnd.2 h

theorem dpop_of_absent {α : Type} (d : Dict α) (k : Str) (h : dlookup d k = none) :
    dpop d k = (none, d) := by
  induction d with
  | nil => rfl
  | cons kv rest ih =>
    obtain ⟨k₀, v₀⟩ := kv
    by_cases h₀ : k₀ = k
    · subst h₀
      rw [dlookup_cons_self] at h
      exact absurd h (by simp)
    · rw [dlookup_cons_ne k₀ k v₀ rest h₀] at h
      simp [dpop, h₀, ih h]

theorem dlookup_dpop_ne {α : Type} (d : Dict α) (k k' : Str) (h : k ≠ k') :
    dlookup (dpop d k).2 k' = dlookup d k' := by
  induction d with
  | nil => rfl
  | cons kv rest ih =>
    obtain ⟨k₀, v₀⟩ := kv
    by_cases h₀ : k₀ = k
    · subst h₀
      have hd : dpop ((k₀, v₀) :: rest) k₀ = (some v₀, rest) := by simp [dpop]
      rw [hd]
      exact (dlookup_cons_ne k₀ k' v₀ rest h).symm
    · simp only [dpop, if_neg h₀]
      by_cases h₁ : k₀ = k'
      · subst h₁
        rw [dlookup_cons_self, dlookup_cons_self]
      · rw [dlookup_cons_ne k₀ k' _ _ h₁, dlookup_cons_ne k₀ k' v₀ rest h₁, ih]

theorem dkeys_dpop_sub {α : Type} (d : Dict α) (k : Str) :
    dkeys (dpop d k).2 ⊆ dkeys d := by
  induction d with
  | nil => exact fun x hx => hx
  | cons kv rest ih =>
    obtain ⟨k₀, v₀⟩ := kv
    by_cases h₀ : k₀ = k
    · simp only [dpop, if_pos h₀]
      exact fun x hx => List.mem_cons_of_mem k₀ hx
    · simp only [dpop, if_neg h₀]
      intro x hx
      simp only [dkeys, List.map_cons, List.mem_cons] at hx ⊢
      rcases hx with hx | hx
      · exact Or.inl hx
      · exact Or.inr (ih hx)

theorem dlookup_dpop_self {α : Type} (d : Dict α) (k : Str) (h : (dkeys d).Nodup) :
    dlookup (dpop d k).2 k = none := by
  induction d with
  | nil => rfl
  | cons kv rest ih =>
    obtain ⟨k₀, v₀⟩ := kv
    simp only [dkeys, List.map_cons, List.nodup_cons] at h
    by_cases h₀ : k₀ = k
    · subst h₀
      simpa [dpop] using (dlookup_eq_none_iff rest k₀).mpr h.1
    · simp only [dpop, if_neg h₀]
      rw [dlookup_cons_ne k₀ k v₀ _ h₀, ih h.2]

theorem nodup_dkeys_dpop {α : Type} (d : Dict α) (k : Str) (h : (dkeys d).Nodup) :
    (dkeys (dpop d k).2).Nodup := by
  induction d with
  | nil => exact List.nodup_nil
  | cons kv rest ih =>
    obtain ⟨k₀, v₀⟩ := kv
    simp only [dkeys, List.map_cons, List.nodup_cons] at h
    by_cases h₀ : k₀ = k
    · simpa [dpop, h₀] using h.2
    · simp only [dpop, if_neg h₀]
      exact List.Nodup.cons (fun hmem => h.1 (dkeys_dpop_sub rest k hmem)) (ih h.2)

/-! Bridging lemmas for the kernel-evaluable rational comparisons. -/

theorem ratGeI_iff (v : Rat) (z : Int) : ratGeI v z = true ↔ (z : Rat) ≤ v := by
  rw [ratGeI, decide_eq_true_iff, Rat.le_def, Rat.num_intCast, Rat.den_intCast]
  simp

theorem ratLeI_iff (v : Rat) (z : Int) : ratLeI v z = true ↔ v ≤ (z : Rat) := by
  rw [ratLeI, decide_eq_true_iff, Rat.le_def, Rat.num_intCast, Rat.den_intCast]
  simp

theorem ratGtI_iff (v : Rat) (z : Int) : ratGtI v z = true ↔ (z : Rat) < v := by
  rw [ratGtI, decide_eq_true_iff, Rat.lt_def, Rat.num_intCast, Rat.den_intCast]
  simp

theorem ratLtI_iff (v : Rat) (z : Int) : ratLtI v z = true ↔ v < (z : Rat) := by
  rw [ratLtI, decide_eq_true_iff, Rat.lt_def, Rat.num_intCast, Rat.den_intCast]
  simp

theorem intSubRat_eq (z : Int) (v : Rat) : intSubRat z v = (z : Rat) - v := by
  have hd : ((v.den : Nat) : Rat) ≠ 0 := by
    exact_mod_cast v.den_nz
  have hnum : (v.num : Rat) = v * ((v.den : Nat) : Rat) :=
    (div_eq_iff hd).mp (Rat.num_div_den v)
  rw [intSubRat, Rat.mkRat_eq_div, div_eq_iff hd]
  push_cast
  push_cast at hnum
  rw [hnum]
  ring

/-- The model-level description of `_calculate_construction_year`: the
executable embedding agrees with the if-chain over genuine rational
comparisons. -/
theorem calcYear_eq_model (v : Rat) (y : Int) :
    calcYear v y = inferConstructionYearSpec v y := by
  unfold calcYear inferConstructionYearSpec
  by_cases h0 : v = 0
  · subst h0
    rw [if_pos (show (0 : Rat).num = 0 by simp), if_neg (by norm_num), if_neg (by norm_num)]
  · have hnum : ¬ v.num = 0 := fun h => h0 (Rat.num_eq_zero.mp h)
    rw [if_neg hnum]
    by_cases h1 : (1900 : Rat) ≤ v ∧ v ≤ (y : Rat) + 2
    · have hb : (ratGeI v 1900 && ratLeI v (y + 2)) = true := by
        rw [Bool.and_eq_true, ratGeI_iff, ratLeI_iff]
        refine ⟨by exact_mod_cast h1.1, ?_⟩
        push_cast
        exact h1.2

      rw [if_pos hb, if_pos h1]
    · have hb : ¬ (ratGeI v 1900 && ratLeI v (y + 2)) = true := by
        rw [Bool.and_eq_true, ratGeI_iff, ratLeI_iff]
        intro hc
        exact h1 ⟨by exact_mod_cast hc.1, by push_cast at hc; exact hc.2⟩
      rw [if_neg hb, if_neg h1]
      by_cases h2 : (0 : Rat) < v ∧ v < 100
      · have hb₂ : (ratGtI v 0 && ratLtI v 100) = true := by
          rw [Bool.and_eq_true, ratGtI_iff, ratLtI_iff]
          exact ⟨by exact_mod_cast h2.1, by exact_mod_cast h2.2⟩
        rw [if_pos hb₂, if_pos h2, intSubRat_eq]
      · have hb₂ : ¬ (ratGtI v 0 && ratLtI v 100) = true := by
          rw [Bool.and_eq_true, ratGtI_iff, ratLtI_iff]
          intro hc
          exact h2 ⟨by exact_mod_cast hc.1, by exact_mod_cast hc.2⟩
        rw [if_neg hb₂, if_neg h2]

/-! Claim C4: `_calculate_construction_year`. -/

/-- C4 counterexample: the claim "otherwise returns y - v when 0 < v < 100"
fails on a non-integer age.  With the reference year 2025 and v = 15.5 the
code returns the integer 2009 (Python `int()` truncation), while y - v is
2009.5. -/
theorem claim4_counterexample :
    calcYear (mkRat 31 2) 2025 = some 2009 ∧
      (2025 : Rat) - mkRat 31 2 ≠ ((2009 : Int) : Rat) := by
  refine ⟨by decide, ?_⟩
  have h := intSubRat_eq 2025 (mkRat 31 2)
  push_cast at h
  rw [← h, show ((2009 : Int) : Rat) = (2009 : Rat) by push_cast; norm_num]
  decide

/-- C4 (amended): for every rational v and reference year y,
`_calculate_construction_year` returns the integer truncation of v when
1900 ≤ v ≤ y+2, otherwise the integer truncation of y - v when 0 < v < 100,
otherwise absent; in particular with reference year 2025, 15 gives 2010,
1998 gives 1998, and 250 is absent. -/
theorem claim4_theorem :
    (∀ (v : Rat) (y : Int), calcYear v y = inferConstructionYearSpec v y) ∧
    calcYear 15 2025 = some 2010 ∧ calcYear 1998 2025 = some 1998 ∧
    calcYear 250 2025 = none :=
  ⟨calcYear_eq_model, by decide, by decide, by decide⟩

/-! Claim C2: the final record holds no empty values. -/

/-- C2: every field of the PropertyRecord returned by `parse_property_html`
has a value that is not `None`, `""`, `[]` or `{}` - the final dict
comprehension prunes exactly these. -/
theorem claim2_theorem (page : Page) (k : Str) (v : Value)
    (h : (k, v) ∈ parsePropertyHtml page) : v.isEmpty = false := by
  unfold parsePropertyHtml consolidate pruneEmpty at h
  have h' := (List.mem_filter.mp h).2
  simpa using h'

/-- C2 witness: on a page with only a URL, the record is `{url: "u"}` and
its value is non-empty. -/
theorem claim2_witness :
    ((str "url", Value.vstr (str "u")) ∈
        parsePropertyHtml ⟨str "u", none, none, none, none, [], [], none⟩) ∧
      (Value.vstr (str "u")).isEmpty = false :=
  ⟨by decide,
    claim2_theorem ⟨str "u", none, none, none, none, [], [], none⟩ (str "url")
      (Value.vstr (str "u")) (by decide)⟩

/-! Claim C7: price and currency extraction. -/

/-- C7: at the price stage (source lines 347-351), a page with a price
block stores under `precio` the first number of the cleaned price text
(commas dropped) and under `moneda` the currency detected by an
`mxn`/`usd` substring test on the lowercased price text - the `MXN` test
runs first - else `None`. -/
theorem claim7_theorem (page : Page) (pt : Str) (h : page.priceText = some pt) :
    dlookup (baseData page) (str "precio") =
        some (numOrNull (extractNumber (cleanText pt))) ∧
      dlookup (baseData page) (str "moneda") = some (monedaOf (cleanText pt)) := by
  unfold baseData
  rw [h]
  constructor
  · rw [dlookup_dinsert_ne _ _ _ _ (by decide), dlookup_dinsert_self]
  · exact dlookup_dinsert_self _ _ _

/-- C7 witness: the spec's end-to-end example, price text
`"$1,234,567 MXN"` gives `precio = 1234567.0` and `moneda = "MXN"`. -/
theorem claim7_witness :
    dlookup (baseData ⟨str "u", none, none, none, some (str "$1,234,567 MXN"), [], [], none⟩)
        (str "precio") = some (Value.num 1234567) ∧
      dlookup (baseData ⟨str "u", none, none, none, some (str "$1,234,567 MXN"), [], [], none⟩)
        (str "moneda") = some (Value.vstr (str "MXN")) :=
  ⟨(claim7_theorem ⟨str "u", none, none, none, some (str "$1,234,567 MXN"), [], [], none⟩
      (str "$1,234,567 MXN") rfl).1.trans (by decide),
   (claim7_theorem ⟨str "u", none, none, none, some (str "$1,234,567 MXN"), [], [], none⟩
      (str "$1,234,567 MXN") rfl).2.trans (by decide)⟩

/-! Claim C6: the narrative amenity sentence. -/

/-- C6: whenever the detail extractor accumulated a non-empty fragment
list, `descripcion_amenidades` holds exactly the fragments deduplicated
preserving first-seen order, joined with `", "`, the last `", "` replaced
by `" y "`, prefixed by `"La propiedad cuenta con "` (that is,
`narrativeSentence` of the fragments). -/
theorem claim6_theorem (cells : List Cell)
    (h : (cells.foldl detailStep ⟨[], [], []⟩).parts ≠ []) :
    dlookup (parseDetails cells) (str "descripcion_amenidades") =
      some (Value.vstr (narrativeSentence (cells.foldl detailStep ⟨[], [], []⟩).parts)) := by
  have hnarr : detailNarrativeData (cells.foldl detailStep ⟨[], [], []⟩) =
      dinsert (cells.foldl detailStep ⟨[], [], []⟩).data (str "descripcion_amenidades")
        (Value.vstr (narrativeSentence (cells.foldl detailStep ⟨[], [], []⟩).parts)) := by
    unfold detailNarrativeData
    rw [if_pos h]
  by_cases ha : (cells.foldl detailStep ⟨[], [], []⟩).amenities ≠ []
  · simp only [parseDetails, detailsFinish, hnarr]
    rw [if_pos ha, dlookup_dinsert_ne _ _ _ _ (by decide), dlookup_dinsert_self]
  · simp only [parseDetails, detailsFinish, hnarr]
    rw [if_neg ha, dlookup_dinsert_self]

/-- C6 witness: the spec's examples - two fragments join with `" y "`,
three fragments join with `", "` before the final `" y "`. -/
theorem claim6_witness :
    dlookup (parseDetails [⟨str "alberca", []⟩, ⟨str "2 recámaras", []⟩])
        (str "descripcion_amenidades") =
      some (Value.vstr (str "La propiedad cuenta con alberca y 2 recámaras")) ∧
    dlookup (parseDetails [⟨str "alberca", []⟩, ⟨str "jardín", []⟩, ⟨str "2 recámaras", []⟩])
        (str "descripcion_amenidades") =
      some (Value.vstr (str "La propiedad cuenta con alberca, jardín y 2 recámaras")) :=
  ⟨(claim6_theorem [⟨str "alberca", []⟩, ⟨str "2 recámaras", []⟩] (by decide)).trans (by decide),
   (claim6_theorem [⟨str "alberca", []⟩, ⟨str "jardín", []⟩, ⟨str "2 recámaras", []⟩]
      (by decide)).trans (by decide)⟩

/-! Claim C10: valueless financial keys still become bare amenities. -/

theorem detailStep_amenities_mono (st : DetailState) (c : Cell) (x : Str)
    (h : x ∈ st.amenities) : x ∈ (detailStep st c).amenities := by
  unfold detailStep
  by_cases hk : c.keyText = []
  · rw [if_pos hk]
    exact h
  · rw [if_neg hk]
    by_cases hv : c.valueText ≠ []
    · rw [if_pos hv]
      exact h
    · rw [if_neg hv]
      exact List.mem_append_left _ h

theorem foldl_detailStep_amenities_mono (cs : List Cell) (st : DetailState) (x : Str)
    (h : x ∈ st.amenities) : x ∈ (cs.foldl detailStep st).amenities := by
  induction cs generalizing st with
  | nil => exact h
  | cons c rest ih => exact ih (detailStep st c) (detailStep_amenities_mono st c x h)

theorem detailStep_valueless_mem (st : DetailState) (c : Cell)
    (hv : c.valueText = []) (hk : c.keyText ≠ []) :
    c.keyText ∈ (detailStep st c).amenities := by
  unfold detailStep
  rw [if_neg hk, if_neg (by simpa using hv)]
  exact List.mem_append_right _ (List.mem_singleton.mpr rfl)

theorem mem_amenities_of_valueless (cells : List Cell) (c : Cell)
    (hmem : c ∈ cells) (hv : c.valueText = []) (hk : c.keyText ≠ []) :
    c.keyText ∈ (cells.foldl detailStep ⟨[], [], []⟩).amenities := by
  obtain ⟨s, t, rfl⟩ := List.append_of_mem hmem
  rw [List.foldl_append]
  exact foldl_detailStep_amenities_mono t _ c.keyText
    (detailStep_valueless_mem (s.foldl detailStep ⟨[], [], []⟩) c hv hk)

/-- C10 (implicit behaviour): a detail cell that yields a non-empty key
with no value appends that key to the bare-amenity list - there is no
financial-key exclusion on this path, so keys containing "precio",
"operacion" or "cuota" land there too - and, when its normalised form is
not already a structured key, the key reaches the stored
`amenidades_estructurales` list. -/
theorem claim10_theorem (cells : List Cell) (c : Cell)
    (hmem : c ∈ cells) (hv : c.valueText = []) (hk : c.keyText ≠ [])
    (hfree : dlookup (detailNarrativeData (cells.foldl detailStep ⟨[], [], []⟩))
      (normKey c.keyText) = none) :
    c.keyText ∈ (cells.foldl detailStep ⟨[], [], []⟩).amenities ∧
    ∃ l, dlookup (parseDetails cells) (str "amenidades_estructurales") =
        some (Value.vlist l) ∧ c.keyText ∈ l := by
  have hamen := mem_amenities_of_valueless cells c hmem hv hk
  refine ⟨hamen, ?_⟩
  have hne : (cells.foldl detailStep ⟨[], [], []⟩).amenities ≠ [] :=
    List.ne_nil_of_mem hamen
  refine ⟨(cells.foldl detailStep ⟨[], [], []⟩).amenities.filter
    (fun a => dlookup (detailNarrativeData (cells.foldl detailStep ⟨[], [], []⟩))
      (normKey a) = none), ?_, ?_⟩
  · simp only [parseDetails, detailsFinish]
    rw [if_pos hne, dlookup_dinsert_self]
  · rw [List.mem_filter]
    exact ⟨hamen, by simpa using hfree⟩

/-- C10 witness: the valueless cell `"Precio"` (a financial key) becomes a
bare amenity, survives the structured-key filter, and reaches the final
`amenidades` list of the full parse as `"Precio"`. -/
theorem claim10_witness :
    (str "Precio" ∈
        (([⟨str "Precio", []⟩] : List Cell).foldl detailStep ⟨[], [], []⟩).amenities) ∧
    (∃ l, dlookup (parseDetails [⟨str "Precio", []⟩]) (str "amenidades_estructurales") =
        some (Value.vlist l) ∧ str "Precio" ∈ l) ∧
    dlookup (parsePropertyHtml
        ⟨str "u", none, none, none, none, [], [⟨str "Precio", []⟩], none⟩)
      (str "amenidades") = some (Value.vlist [str "Precio"]) := by
  have h := claim10_theorem [⟨str "Precio", []⟩] ⟨str "Precio", []⟩
    (by decide) rfl (by decide) (by decide)
  exact ⟨h.1, h.2, by decide⟩

/-! Key-uniqueness of every dict the program builds. -/

theorem nodup_dkeys_parseMainSummary (items : List (Str × Str)) :
    (dkeys (parseMainSummary items)).Nodup := by
  unfold parseMainSummary
  suffices h : ∀ d : Dict Value, (dkeys d).Nodup →
      (dkeys (items.foldl (fun data item =>
        dinsert data (normKey (cleanText item.1))
          (match extractNumber (cleanText item.2) with
           | some q => Value.num q
           | none => Value.null)) d)).Nodup by
    exact h [] List.nodup_nil
  induction items with
  | nil => exact fun d hd => hd
  | cons it rest ih => exact fun d hd => ih (dinsert d _ _) (nodup_dkeys_dinsert d _ _ hd)

theorem nodup_dkeys_detailStep (st : DetailState) (c : Cell)
    (h : (dkeys st.data).Nodup) : (dkeys (detailStep st c).data).Nodup := by
  simp only [detailStep]
  split
  · exact h
  · split
    · split
      · exact nodup_dkeys_dinsert _ _ _ h
      · split
        · exact nodup_dkeys_dinsert _ _ _ h
        · split
          · exact nodup_dkeys_dinsert _ _ _ h
          · exact h
    · exact h

theorem nodup_dkeys_foldl_detailStep (cells : List Cell) (st : DetailState)
    (h : (dkeys st.data).Nodup) : (dkeys (cells.foldl detailStep st).data).Nodup := by
  induction cells generalizing st with
  | nil => exact h
  | cons c rest ih => exact ih (detailStep st c) (nodup_dkeys_detailStep st c h)

theorem nodup_dkeys_detailNarrativeData (st : DetailState)
    (h : (dkeys st.data).Nodup) : (dkeys (detailNarrativeData st)).Nodup := by
  unfold detailNarrativeData
  split
  · exact nodup_dkeys_dinsert _ _ _ h
  · exact h

theorem nodup_dkeys_parseDetails (cells : List Cell) :
    (dkeys (parseDetails cells)).Nodup := by
  have hd := nodup_dkeys_foldl_detailStep cells ⟨[], [], []⟩ List.nodup_nil
  have hn := nodup_dkeys_detailNarrativeData _ hd
  simp only [parseDetails, detailsFinish]
  split
  · exact nodup_dkeys_dinsert _ _ _ hn
  · exact hn

theorem heurStore_nodup (fd : Dict Value) (nk : Str) (items : List Str)
    (hnd : (dkeys fd).Nodup) : (dkeys (heurStore fd nk items)).Nodup := by
  unfold heurStore
  split
  · next old heq =>
    rw [dkeys_dinsert_of_mem fd nk _ (by rw [heq]; exact fun hc => Option.noConfusion hc)]
    exact hnd
  · exact hnd
  · next heq =>
    simp only [dkeys, List.map_append, List.map_cons, List.map_nil]
    rw [List.nodup_append]
    refine ⟨hnd, List.nodup_singleton _, ?_⟩
    intro a ha hb
    rw [List.mem_singleton] at hb
    exact absurd (hb ▸ ha) ((dlookup_eq_none_iff fd nk).mp heq)

theorem heurStore_dom (fd : Dict Value) (nk : Str) (items : List Str)
    (hknown : nk ∈ knownSections)
    (hdom : ∀ k ∈ dkeys fd, k = str "caracteristicas_adicionales" ∨ k ∈ knownSections) :
    ∀ k ∈ dkeys (heurStore fd nk items),
      k = str "caracteristicas_adicionales" ∨ k ∈ knownSections := by
  unfold heurStore
  split
  · next old heq =>
    rw [dkeys_dinsert_of_mem fd nk _ (by rw [heq]; exact fun hc => Option.noConfusion hc)]
    exact hdom
  · exact hdom
  · intro k hk
    simp only [dkeys, List.map_append, List.map_cons, List.map_nil,
      List.mem_append, List.mem_singleton] at hk
    rcases hk with hk | hk
    · exact hdom k hk
    · subst hk
      exact Or.inr hknown

theorem heurFoldStep_inv (acc : Dict Value × List Str) (kv : Str × List Str)
    (hnd : (dkeys acc.1).Nodup)
    (hdom : ∀ k ∈ dkeys acc.1, k = str "caracteristicas_adicionales" ∨ k ∈ knownSections) :
    (dkeys (heurFoldStep acc kv).1).Nodup ∧
      ∀ k ∈ dkeys (heurFoldStep acc kv).1,
        k = str "caracteristicas_adicionales" ∨ k ∈ knownSections := by
  simp only [heurFoldStep]
  split
  · exact ⟨hnd, hdom⟩
  · split
    · next hknown =>
      exact ⟨heurStore_nodup acc.1 _ kv.2 hnd, heurStore_dom acc.1 _ kv.2 hknown hdom⟩
    · exact ⟨hnd, hdom⟩

theorem heurFold_inv (secs : List (Str × List Str)) (acc : Dict Value × List Str)
    (hnd : (dkeys acc.1).Nodup)
    (hdom : ∀ k ∈ dkeys acc.1, k = str "caracteristicas_adicionales" ∨ k ∈ knownSections) :
    (dkeys (secs.foldl heurFoldStep acc).1).Nodup ∧
      ∀ k ∈ dkeys (secs.foldl heurFoldStep acc).1,
        k = str "caracteristicas_adicionales" ∨ k ∈ knownSections := by
  induction secs generalizing acc with
  | nil => exact ⟨hnd, hdom⟩
  | cons kv rest ih =>
    have h := heurFoldStep_inv acc kv hnd hdom
    exact ih (heurFoldStep acc kv) h.1 h.2

theorem nodup_dkeys_parseDescriptionHeuristics (raw : Str) :
    (dkeys (parseDescriptionHeuristics raw)).Nodup := by
  unfold parseDescriptionHeuristics
  split
  · exact List.nodup_singleton _
  · unfold heurFinish
    set st := ((segLines raw).foldl stepLine segInit) with hst
    have hfd : ∀ fd : Dict Value, (dkeys fd).Nodup →
        (∀ k ∈ dkeys fd, k = str "caracteristicas_adicionales" ∨ k ∈ knownSections) →
        (dkeys (if ((dpop st.sections defaultSection).2.foldl heurFoldStep
            (fd, (dpop st.sections defaultSection).1.getD [])).2 ≠ [] then
          ((dpop st.sections defaultSection).2.foldl heurFoldStep
            (fd, (dpop st.sections defaultSection).1.getD [])).1 ++
            [(str "amenidades_extraidas",
              Value.vlist (((dpop st.sections defaultSection).2.foldl heurFoldStep
                (fd, (dpop st.sections defaultSection).1.getD [])).2.filter
                  (fun a => 2 < a.length)))]
        else ((dpop st.sections defaultSection).2.foldl heurFoldStep
            (fd, (dpop st.sections defaultSection).1.getD [])).1)).Nodup := by
      intro fd hnd hdom
      have h := heurFold_inv (dpop st.sections defaultSection).2
        (fd, (dpop st.sections defaultSection).1.getD []) hnd hdom
      split
      · simp only [dkeys, List.map_append, List.map_cons, List.map_nil]
        rw [List.nodup_append]
        refine ⟨h.1, List.nodup_singleton _, ?_⟩
        intro a ha hb
        rw [List.mem_singleton] at hb
        subst hb
        rcases h.2 _ ha with hc | hc
        · exact absurd hc (by decide)
        · exact absurd hc (by decide)
      · exact h.1
    split
    · exact hfd [(str "caracteristicas_adicionales", Value.flags _)]
        (List.nodup_singleton _) (by intro k hk; left; simpa [dkeys] using hk)
    · exact hfd [] List.nodup_nil (by intro k hk; simp [dkeys] at hk)

theorem nodup_dkeys_baseData (page : Page) : (dkeys (baseData page)).Nodup := by
  simp only [baseData]
  have h₀ : (dkeys [(str "url", Value.vstr page.url)]).Nodup := List.nodup_singleton _
  have h₁ := nodup_dkeys_dinsert _ (str "titulo")
    (match page.titulo with | some t => Value.vstr (cleanText t) | none => Value.null) h₀
  have h₂ := nodup_dkeys_dinsert _ (str "subtitulo")
    (match page.subtitulo with | some t => Value.vstr (cleanText t) | none => Value.null) h₁
  have h₃ := nodup_dkeys_dinsert _ (str "direccion")
    (match page.direccion with | some t => Value.vstr (cleanText t) | none => Value.null) h₂
  split
  · exact nodup_dkeys_dinsert _ _ _ (nodup_dkeys_dinsert _ _ _ h₃)
  · exact h₃

theorem nodup_dkeys_mergedData (page : Page) : (dkeys (mergedData page)).Nodup := by
  have h₁ : (dkeys (afterSummary page)).Nodup :=
    nodup_dkeys_dupdate _ _ (nodup_dkeys_baseData page)
  have h₂ : (dkeys (afterDetails page)).Nodup := nodup_dkeys_dupdate _ _ h₁
  have h₃ : (dkeys (afterHeuristics page)).Nodup := by
    unfold afterHeuristics
    split
    · exact nodup_dkeys_dupdate _ _ h₂
    · exact h₂
  unfold mergedData
  split
  · exact nodup_dkeys_dinsert _ _ _ h₃
  · exact h₃

/-! Claim C1: merge stages and overwriting. -/

/-- C1 counterexample: the merge stages do overwrite.  On a page whose
summary block has a "Baños" item with value 2 and whose detail cells carry
"Baños: 3", the summary stage stores `baños = 2.0` and the detail-map
stage silently replaces it by `3.0` (`dict.update` semantics). -/
theorem claim1_counterexample :
    dlookup (afterSummary
        ⟨str "u", none, none, none, none, [(str "Baños", str "2")],
          [⟨str "Baños", str "3"⟩], none⟩) (str "baños") = some (Value.num 2) ∧
    dlookup (afterDetails
        ⟨str "u", none, none, none, none, [(str "Baños", str "2")],
          [⟨str "Baños", str "3"⟩], none⟩) (str "baños") = some (Value.num 3) ∧
    Value.num 2 ≠ Value.num 3 :=
  ⟨by decide, by decide, by decide⟩

/-- C1 (amended): the merge stages of `parse_property_html` follow Python
`dict.update` semantics - each stage sets every key it produces, so on a
collision the later stage's value wins (even over a non-null earlier
value), and keys the later stage does not produce are unchanged; the final
description store sets exactly the key `descripcion`. -/
theorem claim1_theorem (page : Page) (k : Str) :
    (∀ v, dlookup (parseMainSummary page.summaryItems) k = some v →
       dlookup (afterSummary page) k = some v) ∧
    (dlookup (parseMainSummary page.summaryItems) k = none →
       dlookup (afterSummary page) k = dlookup (baseData page) k) ∧
    (∀ v, dlookup (parseDetails page.detailCells) k = some v →
       dlookup (afterDetails page) k = some v) ∧
    (dlookup (parseDetails page.detailCells) k = none →
       dlookup (afterDetails page) k = dlookup (afterSummary page) k) ∧
    (∀ raw v, descText page = some raw →
       dlookup (parseDescriptionHeuristics raw) k = some v →
       dlookup (afterHeuristics page) k = some v) ∧
    (∀ raw, descText page = some raw →
       dlookup (parseDescriptionHeuristics raw) k = none →
       dlookup (afterHeuristics page) k = dlookup (afterDetails page) k) ∧
    (∀ raw, descText page = some raw →
       dlookup (mergedData page) (str "descripcion") =
         some (Value.vstr (cleanDescriptionText raw))) ∧
    (∀ raw, descText page = some raw → k ≠ str "descripcion" →
       dlookup (mergedData page) k = dlookup (afterHeuristics page) k) := by
  refine ⟨?_, ?_, ?_, ?_, ?_, ?_, ?_, ?_⟩
  · intro v hv
    exact dlookup_dupdate_of_some _ _ k v (nodup_dkeys_parseMainSummary _) hv
  · intro hn
    exact dlookup_dupdate_of_none _ _ k hn
  · intro v hv
    exact dlookup_dupdate_of_some _ _ k v (nodup_dkeys_parseDetails _) hv
  · intro hn
    exact dlookup_dupdate_of_none _ _ k hn
  · intro raw v hraw hv
    unfold afterHeuristics
    rw [hraw]
    exact dlookup_dupdate_of_some _ _ k v (nodup_dkeys_parseDescriptionHeuristics raw) hv
  · intro raw hraw hn
    unfold afterHeuristics
    rw [hraw]
    exact dlookup_dupdate_of_none _ _ k hn
  · intro raw hraw
    unfold mergedData
    rw [hraw]
    exact dlookup_dinsert_self _ _ _
  · intro raw hraw hk
    unfold mergedData
    rw [hraw]
    exact dlookup_dinsert_ne _ _ _ _ (fun he => hk he.symm)

/-- C1 witness: the amended semantics at the counterexample page - the
detail value wins, and a key the detail map does not set keeps its summary
value. -/
theorem claim1_witness :
    dlookup (afterDetails
        ⟨str "u", none, none, none, none, [(str "Baños", str "2")],
          [⟨str "Baños", str "3"⟩], none⟩) (str "baños") = some (Value.num 3) ∧
    dlookup (afterDetails
        ⟨str "u", none, none, none, none, [(str "Baños", str "2")],
          [⟨str "Baños", str "3"⟩], none⟩) (str "titulo") =
      dlookup (afterSummary
        ⟨str "u", none, none, none, none, [(str "Baños", str "2")],
          [⟨str "Baños", str "3"⟩], none⟩) (str "titulo") :=
  ⟨(claim1_theorem ⟨str "u", none, none, none, none, [(str "Baños", str "2")],
      [⟨str "Baños", str "3"⟩], none⟩ (str "baños")).2.2.1 (Value.num 3) (by decide),
   (claim1_theorem ⟨str "u", none, none, none, none, [(str "Baños", str "2")],
      [⟨str "Baños", str "3"⟩], none⟩ (str "titulo")).2.2.2.1 (by decide)⟩

/-! Case-mapping and amenity-pipeline lemmas. -/

theorem lowerChar_cases (c : Char) :
    lowerChar c = c ∨ lowerChar c ∈ str "abcdefghijklmnopqrstuvwxyzáéíóúüñ" := by
  unfold lowerChar
  split
  all_goals first
    | (right; decide)
    | (left; rfl)

theorem upperChar_cases (c : Char) :
    upperChar c = c ∨ upperChar c ∈ str "ABCDEFGHIJKLMNOPQRSTUVWXYZÁÉÍÓÚÜÑ" := by
  unfold upperChar
  split
  all_goals first
    | (right; decide)
    | (left; rfl)

theorem lowerChar_idem (c : Char) : lowerChar (lowerChar c) = lowerChar c := by
  rcases lowerChar_cases c with h | h
  · rw [h]
    exact h
  · exact (by decide : ∀ x ∈ str "abcdefghijklmnopqrstuvwxyzáéíóúüñ",
      lowerChar x = x) _ h

theorem upperChar_idem (c : Char) : upperChar (upperChar c) = upperChar c := by
  rcases upperChar_cases c with h | h
  · rw [h]
    exact h
  · exact (by decide : ∀ x ∈ str "ABCDEFGHIJKLMNOPQRSTUVWXYZÁÉÍÓÚÜÑ",
      upperChar x = x) _ h

theorem capitalizeStr_idem (s : Str) : capitalizeStr (capitalizeStr s) = capitalizeStr s := by
  cases s with
  | nil => rfl
  | cons c cs =>
    simp only [capitalizeStr, List.map_map]
    rw [upperChar_idem]
    refine congrArg _ ?_
    exact List.map_congr_left (fun a _ => lowerChar_idem a)

theorem mem_dedupFirstAux (l : List Str) (seen : List Str) (x : Str) :
    x ∈ dedupFirstAux seen l ↔ x ∈ l ∧ x ∉ seen := by
  induction l generalizing seen with
  | nil => simp [dedupFirstAux]
  | cons y ys ih =>
    unfold dedupFirstAux
    by_cases hy : y ∈ seen
    · rw [if_pos hy, ih]
      constructor
      · exact fun h => ⟨List.mem_cons_of_mem y h.1, h.2⟩
      · rintro ⟨hmem, hns⟩
        rcases List.mem_cons.mp hmem with rfl | hmem
        · exact absurd hy hns
        · exact ⟨hmem, hns⟩
    · rw [if_neg hy]
      constructor
      · intro h
        rcases List.mem_cons.mp h with rfl | h
        · exact ⟨List.mem_cons_self _ _, hy⟩
        · have := (ih (y :: seen)).mp h
          exact ⟨List.mem_cons_of_mem y this.1,
            fun hc => this.2 (List.mem_cons_of_mem y hc)⟩
      · rintro ⟨hmem, hns⟩
        rcases List.mem_cons.mp hmem with rfl | hmem
        · exact List.mem_cons_self _ _
        · by_cases hxy : x = y
          · subst hxy
            exact List.mem_cons_self _ _
          · exact List.mem_cons_of_mem _ ((ih (y :: seen)).mpr
              ⟨hmem, fun hc => (List.mem_cons.mp hc).elim hxy hns⟩)

theorem nodup_dedupFirstAux (l : List Str) (seen : List Str) :
    (dedupFirstAux seen l).Nodup := by
  induction l generalizing seen with
  | nil => exact List.nodup_nil
  | cons y ys ih =>
    unfold dedupFirstAux
    by_cases hy : y ∈ seen
    · rw [if_pos hy]
      exact ih seen
    · rw [if_neg hy]
      refine List.Nodup.cons ?_ (ih (y :: seen))
      intro hc
      exact ((mem_dedupFirstAux ys (y :: seen) y).mp hc).2 (List.mem_cons_self _ _)

theorem mem_dedupFirst (l : List Str) (x : Str) : x ∈ dedupFirst l ↔ x ∈ l := by
  rw [dedupFirst, mem_dedupFirstAux]
  simp

theorem sorted_amenPipeline (all : List Str) :
    List.Sorted (· ≤ ·) (amenPipeline all) :=
  List.sorted_insertionSort (· ≤ ·) _

theorem nodup_amenPipeline (all : List Str) : (amenPipeline all).Nodup :=
  ((List.perm_insertionSort (· ≤ ·) _).nodup_iff).mpr (nodup_dedupFirstAux _ [])

theorem mem_amenPipeline (all : List Str) (x : Str) :
    x ∈ amenPipeline all ↔
      x ∈ (all.filter (fun a => a ≠ [])).map (fun a => capitalizeStr (cleanText a)) := by
  rw [amenPipeline, (List.perm_insertionSort (· ≤ ·) _).mem_iff, mem_dedupFirst]

theorem capitalized_amenPipeline (all : List Str) (s : Str) (h : s ∈ amenPipeline all) :
    capitalizeStr s = s := by
  rw [mem_amenPipeline] at h
  obtain ⟨a, _, rfl⟩ := List.mem_map.mp h
  exact capitalizeStr_idem _

theorem amenPipeline_ne_nil (all : List Str) (h : ∃ a ∈ all, a ≠ []) :
    amenPipeline all ≠ [] := by
  obtain ⟨a, hmem, hne⟩ := h
  have : capitalizeStr (cleanText a) ∈ amenPipeline all := by
    rw [mem_amenPipeline]
    exact List.mem_map_of_mem _ (List.mem_filter.mpr ⟨hmem, by simpa using hne⟩)
  exact List.ne_nil_of_mem this

/-! Lookup behaviour of the consolidation steps. -/

theorem dpop_fst {α : Type} (d : Dict α) (k : Str) : (dpop d k).1 = dlookup d k := by
  induction d with
  | nil => rfl
  | cons kv rest ih =>
    obtain ⟨k₀, v₀⟩ := kv
    by_cases h₀ : k₀ = k
    · subst h₀
      simp [dpop, dlookup]
    · simp [dpop, dlookup, h₀, ih]

theorem fusePops_fst (d : Dict Value) : (fusePops d).1 = allAmenities d := by
  simp only [fusePops, allAmenities]
  have he₁ : dlookup (dpop d (str "amenidades_estructurales")).2 (str "amenidades_extraidas") =
      dlookup d (str "amenidades_extraidas") := dlookup_dpop_ne d _ _ (by decide)
  by_cases hx : (dlookup (dpop d (str "amenidades_estructurales")).2
      (str "amenidades_extraidas")).isSome
  · rw [if_pos hx]
    have heq : dlookup (dpop (dpop d (str "amenidades_estructurales")).2
        (str "amenidades_extraidas")).2 (str "equipamiento") =
        dlookup d (str "equipamiento") := by
      rw [dlookup_dpop_ne _ _ _ (by decide), dlookup_dpop_ne _ _ _ (by decide)]
    rw [heq, dpop_fst, dpop_fst, he₁]
    rcases hv : dlookup d (str "equipamiento") with _ | v
    · simp
    · cases v <;> simp
  · rw [if_neg hx]
    have hn : dlookup d (str "amenidades_extraidas") = none := by
      rw [← he₁]
      exact Option.not_isSome_iff_eq_none.mp hx
    have heq : dlookup (dpop d (str "amenidades_estructurales")).2 (str "equipamiento") =
        dlookup d (str "equipamiento") := dlookup_dpop_ne d _ _ (by decide)
    rw [heq, dpop_fst, hn]
    rcases hv : dlookup d (str "equipamiento") with _ | v
    · simp [listOrNil]
    · cases v <;> simp [listOrNil]

theorem fusePops_snd_lookup (d : Dict Value) (k : Str)
    (h₁ : k ≠ str "amenidades_estructurales") (h₂ : k ≠ str "amenidades_extraidas")
    (h₃ : k ≠ str "equipamiento") :
    dlookup (fusePops d).2 k = dlookup d k := by
  simp only [fusePops]
  by_cases hx : (dlookup (dpop d (str "amenidades_estructurales")).2
      (str "amenidades_extraidas")).isSome
  · rw [if_pos hx]
    rcases hv : dlookup (dpop (dpop d (str "amenidades_estructurales")).2
        (str "amenidades_extraidas")).2 (str "equipamiento") with _ | v
    · rw [dlookup_dpop_ne _ _ _ (fun he => h₂ he.symm),
        dlookup_dpop_ne _ _ _ (fun he => h₁ he.symm)]
    · cases v <;>
        first
          | rw [dlookup_dpop_ne _ _ _ (fun he => h₃ he.symm),
              dlookup_dpop_ne _ _ _ (fun he => h₂ he.symm),
              dlookup_dpop_ne _ _ _ (fun he => h₁ he.symm)]
          | rw [dlookup_dpop_ne _ _ _ (fun he => h₂ he.symm),
              dlookup_dpop_ne _ _ _ (fun he => h₁ he.symm)]
  · rw [if_neg hx]
    rcases hv : dlookup (dpop d (str "amenidades_estructurales")).2 (str "equipamiento")
      with _ | v
    · exact dlookup_dpop_ne _ _ _ (fun he => h₁ he.symm)
    · cases v <;>
        first
          | rw [dlookup_dpop_ne _ _ _ (fun he => h₃ he.symm),
              dlookup_dpop_ne _ _ _ (fun he => h₁ he.symm)]
          | exact dlookup_dpop_ne _ _ _ (fun he => h₁ he.symm)

theorem fuseAmenities_lookup (d : Dict Value) (hne : allAmenities d ≠ []) :
    dlookup (fuseAmenities d) (str "amenidades") =
      some (Value.vlist (amenPipeline (allAmenities d))) := by
  simp only [fuseAmenities, fusePops_fst]
  rw [if_pos hne]
  exact dlookup_dinsert_self _ _ _

theorem dlookup_append_sing_ne {α : Type} (d : Dict α) (k₁ k : Str) (v₁ : α) (h : k₁ ≠ k) :
    dlookup (d ++ [(k₁, v₁)]) k = dlookup d k := by
  induction d with
  | nil => simp [dlookup, h]
  | cons kv rest ih =>
    obtain ⟨k₀, v₀⟩ := kv
    by_cases h₀ : k₀ = k
    · subst h₀
      rw [List.cons_append, dlookup_cons_self, dlookup_cons_self]
    · rw [List.cons_append, dlookup_cons_ne k₀ k _ _ h₀, dlookup_cons_ne k₀ k _ _ h₀, ih]

theorem dlookup_append_sing_self {α : Type} (d : Dict α) (k : Str) (v : α)
    (h : dlookup d k = none) : dlookup (d ++ [(k, v)]) k = some v := by
  induction d with
  | nil => simp [dlookup]
  | cons kv rest ih =>
    obtain ⟨k₀, v₀⟩ := kv
    by_cases h₀ : k₀ = k
    · subst h₀
      rw [dlookup_cons_self] at h
      exact absurd h (by simp)
    · rw [dlookup_cons_ne k₀ k v₀ rest h₀] at h
      rw [List.cons_append, dlookup_cons_ne k₀ k _ _ h₀, ih h]

theorem renameStep_untouched (acc : Dict Value) (kv : Str × Value) (k : Str)
    (h : keyMapping kv.1 ≠ k) : dlookup (renameStep acc kv) k = dlookup acc k := by
  simp only [renameStep]
  split
  · split
    · exact dlookup_dinsert_ne _ _ _ _ h
    · rfl
  · exact dlookup_append_sing_ne _ _ _ _ h

theorem renameFold_untouched (d : List (Str × Value)) (acc : Dict Value) (k : Str)
    (h : ∀ k' ∈ dkeys d, keyMapping k' ≠ k) :
    dlookup (d.foldl renameStep acc) k = dlookup acc k := by
  induction d generalizing acc with
  | nil => rfl
  | cons kv rest ih =>
    rw [List.foldl_cons, ih (renameStep acc kv)
      (fun k' hk' => h k' (List.mem_cons_of_mem _ hk')),
      renameStep_untouched acc kv k (h kv.1 (List.mem_cons_self _ _))]

theorem renameFold_some (d : List (Str × Value)) (acc : Dict Value) (k : Str) (v : Value)
    (hpre : ∀ k' ∈ dkeys d, keyMapping k' = k → k' = k)
    (hnd : (dkeys d).Nodup) (hk : keyMapping k = k)
    (hacc : dlookup acc k = none) (hv : dlookup d k = some v) :
    dlookup (d.foldl renameStep acc) k = some v := by
  induction d generalizing acc with
  | nil => exact absurd hv (by simp [dlookup])
  | cons kv rest ih =>
    obtain ⟨k₀, v₀⟩ := kv
    simp only [dkeys, List.map_cons, List.nodup_cons] at hnd
    by_cases h₀ : k₀ = k
    · subst h₀
      rw [dlookup_cons_self] at hv
      have hv₀ : v₀ = v := by injection hv
      subst hv₀
      have hstep : renameStep acc (k₀, v₀) = acc ++ [(k₀, v₀)] := by
        simp only [renameStep, hk]
        rw [hacc]
      rw [List.foldl_cons, hstep, renameFold_untouched rest _ k₀ ?_,
        dlookup_append_sing_self acc k₀ v₀ hacc]
      intro k' hk' hc
      exact hnd.1 ((hpre k' (List.mem_cons_of_mem _ hk') hc) ▸ hk')
    · rw [dlookup_cons_ne k₀ k v₀ rest h₀] at hv
      have hfk : keyMapping k₀ ≠ k := by
        intro hc
        exact h₀ (hpre k₀ (List.mem_cons_self _ _) hc)
      rw [List.foldl_cons]
      exact ih (renameStep acc (k₀, v₀))
        (fun k' hk' => hpre k' (List.mem_cons_of_mem _ hk')) hnd.2
        (by rw [renameStep_untouched acc (k₀, v₀) k hfk]; exact hacc) hv

theorem dlookup_renameKeys_some (d : Dict Value) (k : Str) (v : Value)
    (hk : keyMapping k = k)
    (hpre : ∀ k' ∈ dkeys d, keyMapping k' = k → k' = k)
    (hnd : (dkeys d).Nodup) (hv : dlookup d k = some v) :
    dlookup (renameKeys d) k = some v :=
  renameFold_some d [] k v hpre hnd hk rfl hv

theorem dlookup_renameKeys_none (d : Dict Value) (k : Str)
    (hpre : ∀ k' ∈ dkeys d, keyMapping k' ≠ k) :
    dlookup (renameKeys d) k = none :=
  (renameFold_untouched d [] k hpre).trans rfl

theorem dlookup_pruneEmpty_of_some (d : Dict Value) (k : Str) (v : Value)
    (hv : dlookup d k = some v) (he : v.isEmpty = false) :
    dlookup (pruneEmpty d) k = some v := by
  induction d with
  | nil => exact absurd hv (by simp [dlookup])
  | cons kv rest ih =>
    obtain ⟨k₀, v₀⟩ := kv
    by_cases h₀ : k₀ = k
    · subst h₀
      rw [dlookup_cons_self] at hv
      have hv₀ : v₀ = v := by injection hv
      subst hv₀
      show dlookup (List.filter _ ((k₀, v₀) :: rest)) k₀ = some v₀
      rw [List.filter_cons, if_pos (by simpa using he)]
      exact dlookup_cons_self _ _ _
    · rw [dlookup_cons_ne k₀ k v₀ rest h₀] at hv
      show dlookup (List.filter _ ((k₀, v₀) :: rest)) k = some v
      rw [List.filter_cons]
      by_cases hk₀ : v₀.isEmpty
      · rw [if_neg (by simpa using hk₀)]
        exact ih hv
      · rw [if_pos (by simpa using hk₀)]
        rw [dlookup_cons_ne k₀ k v₀ _ h₀]
        exact ih hv

theorem dlookup_pruneEmpty_of_none (d : Dict Value) (k : Str)
    (hv : dlookup d k = none) : dlookup (pruneEmpty d) k = none := by
  induction d with
  | nil => rfl
  | cons kv rest ih =>
    obtain ⟨k₀, v₀⟩ := kv
    by_cases h₀ : k₀ = k
    · subst h₀
      rw [dlookup_cons_self] at hv
      exact absurd hv (by simp)
    · rw [dlookup_cons_ne k₀ k v₀ rest h₀] at hv
      show dlookup (List.filter _ ((k₀, v₀) :: rest)) k = none
      rw [List.filter_cons]
      by_cases hk₀ : v₀.isEmpty
      · rw [if_neg (by simpa using hk₀)]
        exact ih hv
      · rw [if_pos (by simpa using hk₀)]
        rw [dlookup_cons_ne k₀ k v₀ _ h₀]
        exact ih hv

theorem dlookup_fixYear_ne (d : Dict Value) (k : Str)
    (h : k ≠ str "año_de_construcción") : dlookup (fixYear d) k = dlookup d k := by
  unfold fixYear
  split
  · exact dlookup_dinsert_ne _ _ _ _ (fun he => h he.symm)
  · rfl

theorem nodup_dkeys_fusePops_snd (d : Dict Value) (h : (dkeys d).Nodup) :
    (dkeys (fusePops d).2).Nodup := by
  simp only [fusePops]
  by_cases hx : (dlookup (dpop d (str "amenidades_estructurales")).2
      (str "amenidades_extraidas")).isSome
  · rw [if_pos hx]
    rcases dlookup (dpop (dpop d (str "amenidades_estructurales")).2
        (str "amenidades_extraidas")).2 (str "equipamiento") with _ | v
    · exact nodup_dkeys_dpop _ _ (nodup_dkeys_dpop _ _ h)
    · cases v <;>
        first
          | exact nodup_dkeys_dpop _ _ (nodup_dkeys_dpop _ _ (nodup_dkeys_dpop _ _ h))
          | exact nodup_dkeys_dpop _ _ (nodup_dkeys_dpop _ _ h)
  · rw [if_neg hx]
    rcases dlookup (dpop d (str "amenidades_estructurales")).2 (str "equipamiento") with _ | v
    · exact nodup_dkeys_dpop _ _ h
    · cases v <;>
        first
          | exact nodup_dkeys_dpop _ _ (nodup_dkeys_dpop _ _ h)
          | exact nodup_dkeys_dpop _ _ h

theorem nodup_dkeys_fuseAmenities (d : Dict Value) (h : (dkeys d).Nodup) :
    (dkeys (fuseAmenities d)).Nodup := by
  simp only [fuseAmenities]
  split
  · exact nodup_dkeys_dinsert _ _ _ (nodup_dkeys_fusePops_snd d h)
  · exact nodup_dkeys_fusePops_snd d h

theorem nodup_dkeys_fixYear (d : Dict Value) (h : (dkeys d).Nodup) :
    (dkeys (fixYear d)).Nodup := by
  unfold fixYear
  split
  · exact nodup_dkeys_dinsert _ _ _ h
  · exact h

theorem keyMapping_fix_or_image (k : Str) :
    keyMapping k = k ∨ keyMapping k ∈ [str "m²_terreno", str "m²_construcción",
      str "tipo_propiedad", str "edo_conservacion"] := by
  unfold keyMapping
  split_ifs
  all_goals first
    | (right; decide)
    | (left; rfl)

theorem keyMapping_preimage (k' k : Str) (h : keyMapping k' = k)
    (him : k ∉ [str "m²_terreno", str "m²_construcción",
      str "tipo_propiedad", str "edo_conservacion"]) : k' = k := by
  rcases keyMapping_fix_or_image k' with hf | hf
  · rw [← h, hf]
  · exact absurd (h ▸ hf) him

/-! Claim C5: the final amenidades list. -/

/-- C5 counterexample: a page whose summary block carries a label
"Amenidades" (value 5) and no amenity list at all ends with
`amenidades = 5.0` in the final record - a number, not the
sorted/deduplicated/capitalized list the claim promises for every page. -/
theorem claim5_counterexample :
    dlookup (parsePropertyHtml
        ⟨str "u", none, none, none, none, [(str "Amenidades", str "5")], [], none⟩)
      (str "amenidades") = some (Value.num 5) ∧
    ∀ l : List Str, Value.num 5 ≠ Value.vlist l :=
  ⟨by decide, fun _ h => Value.noConfusion h⟩

/-- C5 (amended): on every page whose merged data holds a list (or
nothing) under the two popped amenity keys - on any other value the
program raises at the `extend` of lines 386-387 and returns no record, or
char-iterates a string, paths outside this embedding - and where the
three amenity sources (structural bare list, heuristic default bucket,
`equipamiento` section) together contain at least one non-empty entry,
the final `amenidades` field is exactly the pipeline of lines 393-396
applied to their concatenation - truthy entries cleaned and capitalized,
deduplicated, sorted - and is therefore sorted, duplicate-free and
capitalized.  (Without the non-empty proviso the field can come from an
unrelated colliding key, as the counterexample shows.) -/
theorem claim5_theorem (page : Page)
    (hbare : isListish (dlookup (mergedData page)
      (str "amenidades_estructurales")) = true)
    (hext : isListish (dlookup (mergedData page)
      (str "amenidades_extraidas")) = true)
    (h : ∃ a ∈ allAmenities (mergedData page), a ≠ []) :
    dlookup (parsePropertyHtml page) (str "amenidades") =
        some (Value.vlist (amenPipeline (allAmenities (mergedData page)))) ∧
      List.Sorted (· ≤ ·) (amenPipeline (allAmenities (mergedData page))) ∧
      (amenPipeline (allAmenities (mergedData page))).Nodup ∧
      ∀ s ∈ amenPipeline (allAmenities (mergedData page)), capitalizeStr s = s := by
  have hnd := nodup_dkeys_mergedData page
  have hne : allAmenities (mergedData page) ≠ [] := by
    obtain ⟨a, ha, _⟩ := h
    exact List.ne_nil_of_mem ha
  have h2 : dlookup (fixYear (fuseAmenities (mergedData page))) (str "amenidades") =
      some (Value.vlist (amenPipeline (allAmenities (mergedData page)))) := by
    rw [dlookup_fixYear_ne _ _ (by decide)]
    exact fuseAmenities_lookup (mergedData page) hne
  have hnd₂ : (dkeys (fixYear (fuseAmenities (mergedData page)))).Nodup :=
    nodup_dkeys_fixYear _ (nodup_dkeys_fuseAmenities _ hnd)
  have h3 : dlookup (renameKeys (fixYear (fuseAmenities (mergedData page))))
      (str "amenidades") =
      some (Value.vlist (amenPipeline (allAmenities (mergedData page)))) := by
    refine dlookup_renameKeys_some _ _ _ (by decide) ?_ hnd₂ h2
    intro k' _ hk'
    exact keyMapping_preimage k' _ hk' (by decide)
  have hv : (Value.vlist (amenPipeline (allAmenities (mergedData page)))).isEmpty = false := by
    simp only [Value.isEmpty]
    exact decide_eq_false (amenPipeline_ne_nil _ h)
  refine ⟨?_, sorted_amenPipeline _, nodup_amenPipeline _,
    fun s hs => capitalized_amenPipeline _ s hs⟩
  show dlookup (pruneEmpty (renameKeys (fixYear (fuseAmenities (mergedData page)))))
    (str "amenidades") = _
  exact dlookup_pruneEmpty_of_some _ _ _ h3 hv

/-- C5 witness: the spec's example - bare amenities
`["alberca","Alberca","jardín"]` come out as `["Alberca","Jardín"]` - on a
page whose amenity stores are genuine lists. -/
theorem claim5_witness :
    (isListish (dlookup (mergedData ⟨str "u", none, none, none, none, [],
        [⟨str "alberca", []⟩, ⟨str "Alberca", []⟩, ⟨str "jardín", []⟩], none⟩)
      (str "amenidades_estructurales")) = true) ∧
    (isListish (dlookup (mergedData ⟨str "u", none, none, none, none, [],
        [⟨str "alberca", []⟩, ⟨str "Alberca", []⟩, ⟨str "jardín", []⟩], none⟩)
      (str "amenidades_extraidas")) = true) ∧
    (∃ a ∈ allAmenities (mergedData ⟨str "u", none, none, none, none, [],
        [⟨str "alberca", []⟩, ⟨str "Alberca", []⟩, ⟨str "jardín", []⟩], none⟩), a ≠ []) ∧
    dlookup (parsePropertyHtml ⟨str "u", none, none, none, none, [],
        [⟨str "alberca", []⟩, ⟨str "Alberca", []⟩, ⟨str "jardín", []⟩], none⟩)
      (str "amenidades") = some (Value.vlist [str "Alberca", str "Jardín"]) :=
  ⟨by decide, by decide, by decide,
    ((claim5_theorem ⟨str "u", none, none, none, none, [],
        [⟨str "alberca", []⟩, ⟨str "Alberca", []⟩, ⟨str "jardín", []⟩], none⟩
      (by decide) (by decide) (by decide)).1).trans (by decide)⟩

/-! Membership lemmas for the segmenter proofs. -/

theorem dlookup_some_mem {α : Type} (d : Dict α) (k : Str) (v : α)
    (h : dlookup d k = some v) : (k, v) ∈ d := by
  induction d with
  | nil => exact absurd h (by simp [dlookup])
  | cons kv rest ih =>
    obtain ⟨k₀, v₀⟩ := kv
    by_cases h₀ : k₀ = k
    · subst h₀
      rw [dlookup_cons_self] at h
      have : v₀ = v := by injection h
      subst this
      exact List.mem_cons_self _ _
    · rw [dlookup_cons_ne k₀ k v₀ rest h₀] at h
      exact List.mem_cons_of_mem _ (ih h)

theorem mem_dinsert {α : Type} (d : Dict α) (k : Str) (v : α) (x : Str × α)
    (h : x ∈ dinsert d k v) : x ∈ d ∨ x = (k, v) := by
  induction d with
  | nil => exact Or.inr (List.mem_singleton.mp h)
  | cons kv rest ih =>
    obtain ⟨k₀, v₀⟩ := kv
    by_cases h₀ : k₀ = k
    · subst h₀
      rw [show dinsert ((k₀, v₀) :: rest) k₀ v = (k₀, v) :: rest by simp [dinsert]] at h
      rcases List.mem_cons.mp h with rfl | h
      · exact Or.inr rfl
      · exact Or.inl (List.mem_cons_of_mem _ h)
    · rw [show dinsert ((k₀, v₀) :: rest) k v = (k₀, v₀) :: dinsert rest k v by
        simp [dinsert, h₀]] at h
      rcases List.mem_cons.mp h with rfl | h
      · exact Or.inl (List.mem_cons_self _ _)
      · rcases ih h with h | h
        · exact Or.inl (List.mem_cons_of_mem _ h)
        · exact Or.inr h

theorem mem_dpop_snd {α : Type} (d : Dict α) (k : Str) (x : Str × α)
    (h : x ∈ (dpop d k).2) : x ∈ d := by
  induction d with
  | nil => exact absurd h (by simp [dpop])
  | cons kv rest ih =>
    obtain ⟨k₀, v₀⟩ := kv
    by_cases h₀ : k₀ = k
    · simp only [dpop, if_pos h₀] at h
      exact List.mem_cons_of_mem _ h
    · simp only [dpop, if_neg h₀] at h
      rcases List.mem_cons.mp h with rfl | h
      · exact List.mem_cons_self _ _
      · exact List.mem_cons_of_mem _ (ih h)

theorem dlookup_append_of_some {α : Type} (d t : Dict α) (k : Str) (v : α)
    (h : dlookup d k = some v) : dlookup (d ++ t) k = some v := by
  induction d with
  | nil => exact absurd h (by simp [dlookup])
  | cons kv rest ih =>
    obtain ⟨k₀, v₀⟩ := kv
    by_cases h₀ : k₀ = k
    · subst h₀
      rw [dlookup_cons_self] at h
      rw [List.cons_append, dlookup_cons_self]
      exact h
    · rw [dlookup_cons_ne k₀ k v₀ rest h₀] at h
      rw [List.cons_append, dlookup_cons_ne k₀ k v₀ _ h₀]
      exact ih h

theorem mem_allItemsSeg_of_mem (sections : Dict (List Str)) (k : Str) (l : List Str)
    (x : Str) (hmem : (k, l) ∈ sections) (hx : x ∈ l) : x ∈ allItemsSeg sections := by
  induction sections with
  | nil => exact absurd hmem (List.not_mem_nil _)
  | cons kv rest ih =>
    rcases List.mem_cons.mp hmem with rfl | hmem
    · exact List.mem_append_left _ hx
    · exact List.mem_append_right _ (ih hmem)

theorem allItemsSeg_append_empty (sections : Dict (List Str)) (sec : Str) :
    allItemsSeg (sections ++ [(sec, [])]) = allItemsSeg sections := by
  induction sections with
  | nil => rfl
  | cons kv rest ih =>
    simp only [allItemsSeg, List.foldr_cons, List.cons_append] at ih ⊢
    rw [ih]

theorem mem_allItemsSeg_appendItem (sections : Dict (List Str)) (k : Str) (it x : Str)
    (h : x ∈ allItemsSeg (appendItem sections k it)) :
    x ∈ allItemsSeg sections ∨ x = it := by
  induction sections with
  | nil => exact absurd h (by simp [appendItem, allItemsSeg])
  | cons kv rest ih =>
    simp only [appendItem, List.map_cons] at h
    by_cases h₀ : kv.1 = k
    · rw [if_pos h₀] at h
      rcases List.mem_append.mp h with h | h
      · rcases List.mem_append.mp h with h | h
        · exact Or.inl (List.mem_append_left _ h)
        · exact Or.inr (List.mem_singleton.mp h)
      · rcases ih h with h | h
        · exact Or.inl (List.mem_append_right _ h)
        · exact Or.inr h
    · rw [if_neg h₀] at h
      rcases List.mem_append.mp h with h | h
      · exact Or.inl (List.mem_append_left _ h)
      · rcases ih h with h | h
        · exact Or.inl (List.mem_append_right _ h)
        · exact Or.inr h

theorem allItemsSeg_maybe_new (s : Dict (List Str)) (k : Str) (x : Str)
    (h : x ∈ allItemsSeg (if (dlookup s k).isSome then s else s ++ [(k, [])])) :
    x ∈ allItemsSeg s := by
  split at h
  · exact h
  · rw [allItemsSeg_append_empty] at h
    exact h

theorem stepLine_items (st : SegState) (line x : Str)
    (h : x ∈ allItemsSeg (stepLine st line).sections) :
    x ∈ allItemsSeg st.sections ∨
      (isKeywordLine line = false ∧ candEmit line = some x) := by
  by_cases h₁ : pyStrip line = []
  · rw [show stepLine st line = st by simp [stepLine, h₁]] at h
    exact Or.inl h
  · simp only [stepLine, if_neg h₁] at h
    cases hh : findHeader (bulletNorm (pyStrip line)) with
    | some g =>
      simp only [hh] at h
      exact Or.inl (allItemsSeg_maybe_new _ _ _ h)
    | none =>
      simp only [hh] at h
      cases hi : itemMatch (bulletNorm (pyStrip line)) with
      | some g =>
        simp only [hi] at h
        by_cases hcond : cleanText g ≠ [] ∧ (!isKeywordLine line) = true
        · rw [if_pos hcond] at h
          rcases mem_allItemsSeg_appendItem _ _ _ _ h with h | rfl
          · exact Or.inl h
          · right
            refine ⟨by simpa using hcond.2, ?_⟩
            simp only [candEmit, if_neg h₁, hh, hi]
            rw [if_pos hcond.1]
        · rw [if_neg hcond] at h
          exact Or.inl h
      | none =>
        simp only [hi] at h
        by_cases hcond : (pyWords (cleanText (pyStrip line))).length < 15 ∧
            st.current ≠ defaultSection
        · rw [if_pos hcond] at h
          by_cases hcond₂ : cleanText (pyStrip line) ≠ [] ∧ (!isKeywordLine line) = true
          · rw [if_pos hcond₂] at h
            rcases mem_allItemsSeg_appendItem _ _ _ _ h with h | rfl
            · exact Or.inl h
            · right
              refine ⟨by simpa using hcond₂.2, ?_⟩
              simp only [candEmit, if_neg h₁, hh, hi]
              rw [if_pos ⟨hcond.1, hcond₂.1⟩]
          · rw [if_neg hcond₂] at h
            exact Or.inl h
        · rw [if_neg hcond] at h
          exact Or.inl h

theorem foldl_stepLine_items (lines : List Str) (st : SegState) (x : Str)
    (h : x ∈ allItemsSeg (lines.foldl stepLine st).sections) :
    x ∈ allItemsSeg st.sections ∨
      ∃ line ∈ lines, isKeywordLine line = false ∧ candEmit line = some x := by
  induction lines generalizing st with
  | nil => exact Or.inl h
  | cons l rest ih =>
    rw [List.foldl_cons] at h
    rcases ih (stepLine st l) h with h | ⟨line, hmem, hline⟩
    · rcases stepLine_items st l x h with h | h
      · exact Or.inl h
      · exact Or.inr ⟨l, List.mem_cons_self _ _, h⟩
    · exact Or.inr ⟨line, List.mem_cons_of_mem _ hmem, hline⟩

/-! Flag behaviour of the segmenter. -/

theorem dlookup_dinsert_true (f : List (Str × Bool)) (key k : Str)
    (h : dlookup f k = some true) : dlookup (dinsert f key true) k = some true := by
  by_cases hk : key = k
  · subst hk
    exact dlookup_dinsert_self f key true
  · rw [dlookup_dinsert_ne f key k true hk]
    exact h

theorem stepFlags_mono (flags : List (Str × Bool)) (line : Str) (k : Str)
    (h : dlookup flags k = some true) : dlookup (stepFlags flags line) k = some true := by
  simp only [stepFlags]
  split
  · split
    · exact dlookup_dinsert_true _ _ _ (dlookup_dinsert_true _ _ _ h)
    · exact dlookup_dinsert_true _ _ _ h
  · split
    · exact dlookup_dinsert_true _ _ _ h
    · exact h

theorem stepLine_flags (st : SegState) (line : Str) :
    (stepLine st line).flags =
      if pyStrip line = [] then st.flags else stepFlags st.flags line := by
  by_cases h₁ : pyStrip line = []
  · simp [stepLine, h₁]
  · rw [if_neg h₁]
    simp only [stepLine, if_neg h₁]
    split
    · rfl
    · split
      · split
        · rfl
        · rfl
      · split
        · split
          · rfl
          · rfl
        · rfl

theorem stepLine_flags_mono (st : SegState) (line k : Str)
    (h : dlookup st.flags k = some true) :
    dlookup (stepLine st line).flags k = some true := by
  rw [stepLine_flags]
  split
  · exact h
  · exact stepFlags_mono st.flags line k h

theorem foldl_stepLine_flags_mono (lines : List Str) (st : SegState) (k : Str)
    (h : dlookup st.flags k = some true) :
    dlookup ((lines.foldl stepLine st).flags) k = some true := by
  induction lines generalizing st with
  | nil => exact h
  | cons l rest ih => exact ih (stepLine st l) (stepLine_flags_mono st l k h)

theorem kwPrecio_strip_ne (line : Str) (h : kwPrecioLine line = true) :
    pyStrip line ≠ [] := by
  intro he
  simp only [kwPrecioLine, he] at h
  exact absurd h (by decide)

theorem kwMant_strip_ne (line : Str) (h : kwMantLine line = true) :
    pyStrip line ≠ [] := by
  intro he
  simp only [kwMantLine, he] at h
  exact absurd h (by decide)

theorem stepFlags_sets_precio (flags : List (Str × Bool)) (line : Str)
    (h : kwPrecioLine line = true) :
    dlookup (stepFlags flags line) (str "precio_negociable") = some true := by
  simp only [stepFlags, if_pos h]
  split
  · exact dlookup_dinsert_true _ _ _ (dlookup_dinsert_self _ _ _)
  · exact dlookup_dinsert_self _ _ _

theorem stepFlags_sets_mant (flags : List (Str × Bool)) (line : Str)
    (h : kwMantLine line = true) :
    dlookup (stepFlags flags line) (str "no_paga_mantenimiento") = some true := by
  simp only [stepFlags, if_pos h]
  exact dlookup_dinsert_self _ _ _

theorem foldl_flags_precio (lines : List Str) (st : SegState)
    (h : ∃ line ∈ lines, kwPrecioLine line = true) :
    dlookup ((lines.foldl stepLine st).flags) (str "precio_negociable") = some true := by
  induction lines generalizing st with
  | nil =>
    obtain ⟨line, hmem, _⟩ := h
    exact absurd hmem (List.not_mem_nil line)
  | cons l rest ih =>
    obtain ⟨line, hmem, hkw⟩ := h
    rcases List.mem_cons.mp hmem with rfl | hmem
    · rw [List.foldl_cons]
      refine foldl_stepLine_flags_mono rest _ _ ?_
      rw [stepLine_flags, if_neg (kwPrecio_strip_ne line hkw)]
      exact stepFlags_sets_precio st.flags line hkw
    · exact ih (stepLine st l) ⟨line, hmem, hkw⟩

theorem foldl_flags_mant (lines : List Str) (st : SegState)
    (h : ∃ line ∈ lines, kwMantLine line = true) :
    dlookup ((lines.foldl stepLine st).flags) (str "no_paga_mantenimiento") = some true := by
  induction lines generalizing st with
  | nil =>
    obtain ⟨line, hmem, _⟩ := h
    exact absurd hmem (List.not_mem_nil line)
  | cons l rest ih =>
    obtain ⟨line, hmem, hkw⟩ := h
    rcases List.mem_cons.mp hmem with rfl | hmem
    · rw [List.foldl_cons]
      refine foldl_stepLine_flags_mono rest _ _ ?_
      rw [stepLine_flags, if_neg (kwMant_strip_ne line hkw)]
      exact stepFlags_sets_mant st.flags line hkw
    · exact ih (stepLine st l) ⟨line, hmem, hkw⟩

/-! The post-pass only rearranges items. -/

theorem heurStore_items (fd : Dict Value) (nk : Str) (items : List Str) (P : Str → Prop)
    (hfd : ∀ k l, (k, Value.vlist l) ∈ fd → ∀ x ∈ l, P x)
    (hit : ∀ x ∈ items, P x) :
    ∀ k l, (k, Value.vlist l) ∈ heurStore fd nk items → ∀ x ∈ l, P x := by
  intro k l hmem x hx
  unfold heurStore at hmem
  split at hmem
  · next old heq =>
    rcases mem_dinsert _ _ _ _ hmem with hmem | hmem
    · exact hfd k l hmem x hx
    · have hl : l = old ++ items := by
        have := congrArg Prod.snd hmem
        simpa using this
      subst hl
      rcases List.mem_append.mp hx with hx | hx
      · exact hfd nk old (dlookup_some_mem fd nk _ heq) x hx
      · exact hit x hx
  · exact hfd k l hmem x hx
  · rcases List.mem_append.mp hmem with hmem | hmem
    · exact hfd k l hmem x hx
    · have := List.mem_singleton.mp hmem
      have hl : l = items := by
        have h2 := congrArg Prod.snd this
        simpa using h2
      subst hl
      exact hit x hx

theorem heurFoldStep_items (acc : Dict Value × List Str) (kv : Str × List Str)
    (P : Str → Prop)
    (hfd : ∀ k l, (k, Value.vlist l) ∈ acc.1 → ∀ x ∈ l, P x)
    (hsnd : ∀ x ∈ acc.2, P x)
    (hkv : ∀ x ∈ kv.2, P x) :
    (∀ k l, (k, Value.vlist l) ∈ (heurFoldStep acc kv).1 → ∀ x ∈ l, P x) ∧
      ∀ x ∈ (heurFoldStep acc kv).2, P x := by
  simp only [heurFoldStep]
  split
  · exact ⟨hfd, hsnd⟩
  · split
    · exact ⟨heurStore_items acc.1 _ kv.2 P hfd hkv, hsnd⟩
    · refine ⟨hfd, ?_⟩
      intro x hx
      rcases List.mem_append.mp hx with hx | hx
      · exact hsnd x hx
      · exact hkv x hx

theorem heurFold_items (secs : List (Str × List Str)) (acc : Dict Value × List Str)
    (P : Str → Prop)
    (hsecs : ∀ kv ∈ secs, ∀ x ∈ kv.2, P x)
    (hfd : ∀ k l, (k, Value.vlist l) ∈ acc.1 → ∀ x ∈ l, P x)
    (hsnd : ∀ x ∈ acc.2, P x) :
    (∀ k l, (k, Value.vlist l) ∈ (secs.foldl heurFoldStep acc).1 → ∀ x ∈ l, P x) ∧
      ∀ x ∈ (secs.foldl heurFoldStep acc).2, P x := by
  induction secs generalizing acc with
  | nil => exact ⟨hfd, hsnd⟩
  | cons kv rest ih =>
    have h := heurFoldStep_items acc kv P hfd hsnd
      (hsecs kv (List.mem_cons_self _ _))
    exact ih (heurFoldStep acc kv)
      (fun kv' hkv' => hsecs kv' (List.mem_cons_of_mem _ hkv')) h.1 h.2

theorem heurFinish_items (st : SegState) (k : Str) (l : List Str) (x : Str)
    (hmem : (k, Value.vlist l) ∈ heurFinish st) (hx : x ∈ l) :
    x ∈ allItemsSeg st.sections := by
  have hamen : ∀ y ∈ ((dpop st.sections defaultSection).1.getD []),
      y ∈ allItemsSeg st.sections := by
    intro y hy
    rcases hp : (dpop st.sections defaultSection).1 with _ | l₀
    · rw [hp] at hy
      exact absurd hy (List.not_mem_nil y)
    · rw [hp] at hy
      have : dlookup st.sections defaultSection = some l₀ := by
        rw [← dpop_fst, hp]
      exact mem_allItemsSeg_of_mem _ _ _ y (dlookup_some_mem _ _ _ this) hy
  have hsecs : ∀ kv ∈ (dpop st.sections defaultSection).2, ∀ y ∈ kv.2,
      y ∈ allItemsSeg st.sections := by
    intro kv hkv y hy
    exact mem_allItemsSeg_of_mem _ kv.1 kv.2 y (by
      have := mem_dpop_snd _ _ _ hkv
      simpa using this) hy
  simp only [heurFinish] at hmem
  by_cases hf : st.flags ≠ []
  · rw [if_pos hf] at hmem
    have hfd : ∀ k₀ l₀, (k₀, Value.vlist l₀) ∈
        [(str "caracteristicas_adicionales", Value.flags st.flags)] →
        ∀ y ∈ l₀, y ∈ allItemsSeg st.sections := by
      intro k₀ l₀ hm y _
      have := List.mem_singleton.mp hm
      exact absurd (congrArg Prod.snd this) (by simp)
    have h := heurFold_items (dpop st.sections defaultSection).2
      ([(str "caracteristicas_adicionales", Value.flags st.flags)],
        (dpop st.sections defaultSection).1.getD [])
      (fun y => y ∈ allItemsSeg st.sections) hsecs hfd hamen
    split at hmem
    · rcases List.mem_append.mp hmem with hmem | hmem
      · exact h.1 k l hmem x hx
      · have heq := List.mem_singleton.mp hmem
        have hl : l = ((dpop st.sections defaultSection).2.foldl heurFoldStep
            ([(str "caracteristicas_adicionales", Value.flags st.flags)],
              (dpop st.sections defaultSection).1.getD [])).2.filter
            (fun a => 2 < a.length) := by
          have h2 := congrArg Prod.snd heq
          simpa using h2
        subst hl
        exact h.2 x (List.mem_of_mem_filter hx)
    · exact h.1 k l hmem x hx
  · rw [if_neg hf] at hmem
    have hfd : ∀ k₀ l₀, (k₀, Value.vlist l₀) ∈ ([] : Dict Value) →
        ∀ y ∈ l₀, y ∈ allItemsSeg st.sections := by
      intro k₀ l₀ hm y _
      exact absurd hm (List.not_mem_nil _)
    have h := heurFold_items (dpop st.sections defaultSection).2
      ([], (dpop st.sections defaultSection).1.getD [])
      (fun y => y ∈ allItemsSeg st.sections) hsecs hfd hamen
    split at hmem
    · rcases List.mem_append.mp hmem with hmem | hmem
      · exact h.1 k l hmem x hx
      · have heq := List.mem_singleton.mp hmem
        have hl : l = ((dpop st.sections defaultSection).2.foldl heurFoldStep
            ([], (dpop st.sections defaultSection).1.getD [])).2.filter
            (fun a => 2 < a.length) := by
          have h2 := congrArg Prod.snd heq
          simpa using h2
        subst hl
        exact h.2 x (List.mem_of_mem_filter hx)
    · exact h.1 k l hmem x hx


theorem heurFinish_flagLookup (st : SegState) (k : Str)
    (h : dlookup st.flags k = some true) :
    flagLookup (heurFinish st) k = some true := by
  have hne : st.flags ≠ [] := by
    intro he
    rw [he] at h
    exact Option.noConfusion h
  have hcar : ∀ (acc : Dict Value × List Str),
      dlookup acc.1 (str "caracteristicas_adicionales") = some (Value.flags st.flags) →
      dlookup ((dpop st.sections defaultSection).2.foldl heurFoldStep acc).1
        (str "caracteristicas_adicionales") = some (Value.flags st.flags) := by
    intro acc hacc
    induction (dpop st.sections defaultSection).2 generalizing acc with
    | nil => exact hacc
    | cons kv rest ih =>
      refine ih (heurFoldStep acc kv) ?_
      simp only [heurFoldStep]
      split
      · exact hacc
      · split
        · next hknown =>
          show dlookup (heurStore acc.1 _ kv.2) _ = _
          unfold heurStore
          split
          · refine (dlookup_dinsert_ne _ _ _ _ ?_).trans hacc
            exact (by decide : ∀ x ∈ knownSections,
              x ≠ str "caracteristicas_adicionales") _ hknown
          · exact hacc
          · exact dlookup_append_of_some _ _ _ _ hacc
        · exact hacc
  have hlook : dlookup (heurFinish st) (str "caracteristicas_adicionales") =
      some (Value.flags st.flags) := by
    simp only [heurFinish]
    rw [if_pos hne]
    have hbase := hcar ([(str "caracteristicas_adicionales", Value.flags st.flags)],
      (dpop st.sections defaultSection).1.getD []) (dlookup_cons_self _ _ _)
    split
    · exact dlookup_append_of_some _ _ _ _ hbase
    · exact hbase
  rw [flagLookup, hlook]
  exact h

/-! Claim C3: keyword lines set flags and are never emitted. -/

/-- C3: for every raw description, (i) a line whose single-line-normalized
lowercase form contains "precio a tratar"/"precio negociable" forces
`caracteristicas_adicionales.precio_negociable = true` in the segmenter's
output, (ii) likewise "no paga mantenimiento" forces
`no_paga_mantenimiento = true`, and (iii) every string stored in any
section list of the output is the candidate emission of some
non-keyword-marked line - keyword lines are never emitted. -/
theorem claim3_theorem (raw : Str) :
    (∀ line ∈ segLines raw, kwPrecioLine line = true →
        flagLookup (parseDescriptionHeuristics raw) (str "precio_negociable") = some true) ∧
    (∀ line ∈ segLines raw, kwMantLine line = true →
        flagLookup (parseDescriptionHeuristics raw) (str "no_paga_mantenimiento") =
          some true) ∧
    (∀ k l, (k, Value.vlist l) ∈ parseDescriptionHeuristics raw → ∀ item ∈ l,
        ∃ line ∈ segLines raw, isKeywordLine line = false ∧ candEmit line = some item) := by
  by_cases hraw : raw = []
  · subst hraw
    refine ⟨?_, ?_, ?_⟩
    · intro line hmem hkw
      have hline : line = [] := by
        simpa [segLines, preprocessDesc, stripInvisible, pyStrip, stripLeft,
          subBullets, splitNl] using hmem
      rw [hline] at hkw
      exact absurd hkw (by decide)
    · intro line hmem hkw
      have hline : line = [] := by
        simpa [segLines, preprocessDesc, stripInvisible, pyStrip, stripLeft,
          subBullets, splitNl] using hmem
      rw [hline] at hkw
      exact absurd hkw (by decide)
    · intro k l hmem item hitem
      have hmem' : (k, Value.vlist l) ∈
          [(defaultSection, Value.vlist ([] : List Str))] := by
        simpa [parseDescriptionHeuristics] using hmem
      have heq := List.mem_singleton.mp hmem'
      have hl : l = [] := by
        have h2 := congrArg Prod.snd heq
        simpa using h2
      rw [hl] at hitem
      exact absurd hitem (List.not_mem_nil _)
  · have hout : parseDescriptionHeuristics raw =
        heurFinish ((segLines raw).foldl stepLine segInit) := by
      simp [parseDescriptionHeuristics, hraw]
    refine ⟨?_, ?_, ?_⟩
    · intro line hmem hkw
      rw [hout]
      exact heurFinish_flagLookup _ _ (foldl_flags_precio _ _ ⟨line, hmem, hkw⟩)
    · intro line hmem hkw
      rw [hout]
      exact heurFinish_flagLookup _ _ (foldl_flags_mant _ _ ⟨line, hmem, hkw⟩)
    · intro k l hmem item hitem
      rw [hout] at hmem
      rcases foldl_stepLine_items (segLines raw) segInit item
          (heurFinish_items _ k l item hmem hitem) with h | h
      · exact absurd h (List.not_mem_nil item)
      · exact h

/-- C3 witness: the spec's example - the line `"*Precio a tratar*"` is a
keyword line and the segmenter's output carries
`precio_negociable = true`. -/
theorem claim3_witness :
    (str "*Precio a tratar*" ∈ segLines (str "*Precio a tratar*\n- alberca") ∧
      kwPrecioLine (str "*Precio a tratar*") = true) ∧
    flagLookup (parseDescriptionHeuristics (str "*Precio a tratar*\n- alberca"))
      (str "precio_negociable") = some true :=
  ⟨⟨by decide, by decide⟩,
    (claim3_theorem (str "*Precio a tratar*\n- alberca")).1
      (str "*Precio a tratar*") (by decide) (by decide)⟩

/-! Identity and stability lemmas for the consolidation (claim C9). -/

theorem dinsert_self_of_lookup {α : Type} (d : Dict α) (k : Str) (v : α)
    (h : dlookup d k = some v) : dinsert d k v = d := by
  induction d with
  | nil => exact absurd h (by simp [dlookup])
  | cons kv rest ih =>
    obtain ⟨k₀, v₀⟩ := kv
    by_cases h₀ : k₀ = k
    · subst h₀
      rw [dlookup_cons_self] at h
      have : v₀ = v := by injection h
      subst this
      simp [dinsert]
    · rw [dlookup_cons_ne k₀ k v₀ rest h₀] at h
      simp [dinsert, h₀, ih h]

theorem mem_nodup_dlookup {α : Type} (d : Dict α) (k : Str) (v : α)
    (hmem : (k, v) ∈ d) (hnd : (dkeys d).Nodup) : dlookup d k = some v := by
  induction d with
  | nil => exact absurd hmem (List.not_mem_nil (k, v))
  | cons kv rest ih =>
    obtain ⟨k₀, v₀⟩ := kv
    simp only [dkeys, List.map_cons, List.nodup_cons] at hnd
    rcases List.mem_cons.mp hmem with heq | hmem
    · have hk : k₀ = k := (congrArg Prod.fst heq).symm
      subst hk
      have hv : v₀ = v := (congrArg Prod.snd heq).symm
      subst hv
      exact dlookup_cons_self _ _ _
    · have hk : k₀ ≠ k := by
        intro he
        subst he
        exact hnd.1 (List.mem_map_of_mem Prod.fst hmem)
      rw [dlookup_cons_ne k₀ k v₀ rest hk]
      exact ih hmem hnd.2

theorem nodup_dkeys_pruneEmpty (d : Dict Value) (h : (dkeys d).Nodup) :
    (dkeys (pruneEmpty d)).Nodup := by
  have hsub : List.Sublist (dkeys (pruneEmpty d)) (dkeys d) := (List.filter_sublist d).map _
  exact h.sublist hsub

theorem mem_pruneEmpty (d : Dict Value) (x : Str × Value) (h : x ∈ pruneEmpty d) :
    x ∈ d := List.mem_of_mem_filter h

theorem pruneEmpty_eq_self (d : Dict Value) (h : ∀ kv ∈ d, kv.2.isEmpty = false) :
    pruneEmpty d = d :=
  List.filter_eq_self.mpr (fun kv hkv => by simp [h kv hkv])

theorem fusePops_snd_bare (d : Dict Value) (hnd : (dkeys d).Nodup) :
    dlookup (fusePops d).2 (str "amenidades_estructurales") = none := by
  simp only [fusePops]
  have h1 : dlookup (dpop d (str "amenidades_estructurales")).2
      (str "amenidades_estructurales") = none := dlookup_dpop_self d _ hnd
  by_cases hx : (dlookup (dpop d (str "amenidades_estructurales")).2
      (str "amenidades_extraidas")).isSome
  · rw [if_pos hx]
    rcases dlookup (dpop (dpop d (str "amenidades_estructurales")).2
        (str "amenidades_extraidas")).2 (str "equipamiento") with _ | v
    · rw [dlookup_dpop_ne _ _ _ (by decide)]
      exact h1
    · cases v <;>
        first
          | (rw [dlookup_dpop_ne _ _ _ (by decide), dlookup_dpop_ne _ _ _ (by decide)]
             exact h1)
          | (rw [dlookup_dpop_ne _ _ _ (by decide)]
             exact h1)
  · rw [if_neg hx]
    rcases dlookup (dpop d (str "amenidades_estructurales")).2 (str "equipamiento") with _ | v
    · exact h1
    · cases v <;>
        first
          | (rw [dlookup_dpop_ne _ _ _ (by decide)]
             exact h1)
          | exact h1

theorem fusePops_snd_extraidas (d : Dict Value) (hnd : (dkeys d).Nodup) :
    dlookup (fusePops d).2 (str "amenidades_extraidas") = none := by
  simp only [fusePops]
  by_cases hx : (dlookup (dpop d (str "amenidades_estructurales")).2
      (str "amenidades_extraidas")).isSome
  · rw [if_pos hx]
    have h1 : dlookup (dpop (dpop d (str "amenidades_estructurales")).2
        (str "amenidades_extraidas")).2 (str "amenidades_extraidas") = none :=
      dlookup_dpop_self _ _ (nodup_dkeys_dpop d _ hnd)
    rcases dlookup (dpop (dpop d (str "amenidades_estructurales")).2
        (str "amenidades_extraidas")).2 (str "equipamiento") with _ | v
    · exact h1
    · cases v <;>
        first
          | (rw [dlookup_dpop_ne _ _ _ (by decide)]
             exact h1)
          | exact h1
  · rw [if_neg hx]
    have h1 : dlookup (dpop d (str "amenidades_estructurales")).2
        (str "amenidades_extraidas") = none := Option.not_isSome_iff_eq_none.mp hx
    rcases dlookup (dpop d (str "amenidades_estructurales")).2 (str "equipamiento") with _ | v
    · exact h1
    · cases v <;>
        first
          | (rw [dlookup_dpop_ne _ _ _ (by decide)]
             exact h1)
          | exact h1

theorem fusePops_snd_equip (d : Dict Value) (hnd : (dkeys d).Nodup) (l : List Str) :
    dlookup (fusePops d).2 (str "equipamiento") ≠ some (Value.vlist l) := by
  simp only [fusePops]
  by_cases hx : (dlookup (dpop d (str "amenidades_estructurales")).2
      (str "amenidades_extraidas")).isSome
  · rw [if_pos hx]
    rcases hv : dlookup (dpop (dpop d (str "amenidades_estructurales")).2
        (str "amenidades_extraidas")).2 (str "equipamiento") with _ | v
    · rw [hv]
      exact fun hc => Option.noConfusion hc
    · cases v with
      | vlist l₀ =>
        rw [dlookup_dpop_self _ _
          (nodup_dkeys_dpop _ _ (nodup_dkeys_dpop d _ hnd))]
        exact fun hc => Option.noConfusion hc
      | num n =>
        rw [hv]
        intro hc
        exact Value.noConfusion (Option.some.inj hc)
      | vstr s =>
        rw [hv]
        intro hc
        exact Value.noConfusion (Option.some.inj hc)
      | flags f =>
        rw [hv]
        intro hc
        exact Value.noConfusion (Option.some.inj hc)
      | null =>
        rw [hv]
        intro hc
        exact Value.noConfusion (Option.some.inj hc)
  · rw [if_neg hx]
    rcases hv : dlookup (dpop d (str "amenidades_estructurales")).2 (str "equipamiento")
      with _ | v
    · rw [hv]
      exact fun hc => Option.noConfusion hc
    · cases v with
      | vlist l₀ =>
        rw [dlookup_dpop_self _ _ (nodup_dkeys_dpop d _ hnd)]
        exact fun hc => Option.noConfusion hc
      | num n =>
        rw [hv]
        intro hc
        exact Value.noConfusion (Option.some.inj hc)
      | vstr s =>
        rw [hv]
        intro hc
        exact Value.noConfusion (Option.some.inj hc)
      | flags f =>
        rw [hv]
        intro hc
        exact Value.noConfusion (Option.some.inj hc)
      | null =>
        rw [hv]
        intro hc
        exact Value.noConfusion (Option.some.inj hc)

theorem dlookup_fuseAmenities_ne (d : Dict Value) (k : Str)
    (h₁ : k ≠ str "amenidades_estructurales") (h₂ : k ≠ str "amenidades_extraidas")
    (h₃ : k ≠ str "equipamiento") (h₄ : k ≠ str "amenidades") :
    dlookup (fuseAmenities d) k = dlookup d k := by
  simp only [fuseAmenities]
  split
  · rw [dlookup_dinsert_ne _ _ _ _ (fun he => h₄ he.symm)]
    exact fusePops_snd_lookup d k h₁ h₂ h₃
  · exact fusePops_snd_lookup d k h₁ h₂ h₃

theorem dlookup_fuseAmenities_bare (d : Dict Value) (hnd : (dkeys d).Nodup) :
    dlookup (fuseAmenities d) (str "amenidades_estructurales") = none := by
  simp only [fuseAmenities]
  split
  · rw [dlookup_dinsert_ne _ _ _ _ (by decide)]
    exact fusePops_snd_bare d hnd
  · exact fusePops_snd_bare d hnd

theorem dlookup_fuseAmenities_extraidas (d : Dict Value) (hnd : (dkeys d).Nodup) :
    dlookup (fuseAmenities d) (str "amenidades_extraidas") = none := by
  simp only [fuseAmenities]
  split
  · rw [dlookup_dinsert_ne _ _ _ _ (by decide)]
    exact fusePops_snd_extraidas d hnd
  · exact fusePops_snd_extraidas d hnd

theorem dlookup_fuseAmenities_equip (d : Dict Value) (hnd : (dkeys d).Nodup)
    (l : List Str) :
    dlookup (fuseAmenities d) (str "equipamiento") ≠ some (Value.vlist l) := by
  simp only [fuseAmenities]
  split
  · rw [dlookup_dinsert_ne _ _ _ _ (by decide)]
    exact fusePops_snd_equip d hnd l
  · exact fusePops_snd_equip d hnd l

theorem calcYear_int_in_range (y : Int) (h1 : 1900 ≤ y) (h2 : y ≤ 2027) :
    calcYear ((y : Rat)) 2025 = some y := by
  have hnum : ((y : Rat)).num = y := Rat.num_intCast y
  have hne : ¬ ((y : Rat)).num = 0 := by
    rw [hnum]
    omega
  have hge : ratGeI ((y : Rat)) 1900 = true := by
    rw [ratGeI_iff]
    exact_mod_cast h1
  have hle : ratLeI ((y : Rat)) (2025 + 2) = true := by
    rw [ratLeI_iff]
    exact_mod_cast h2
  rw [calcYear, if_neg hne, if_pos (by rw [Bool.and_eq_true]; exact ⟨hge, hle⟩)]
  have htr : ratTrunc ((y : Rat)) = y := by
    rw [ratTrunc, if_pos (by rw [hnum]; omega)]
    exact Int.floor_intCast y
  rw [htr]

theorem calcYear_stable (u : Rat) (y : Int) (h : calcYear u 2025 = some y) :
    calcYear ((y : Rat)) 2025 = some y := by
  rw [calcYear] at h
  split at h
  · exact absurd h (by simp)
  · split at h
    · next hb =>
      rw [Bool.and_eq_true, ratGeI_iff, ratLeI_iff] at hb
      have hy : ratTrunc u = y := by injection h
      have hu0 : (0 : Rat) ≤ u := le_trans (by norm_num) hb.1
      have htr : ratTrunc u = ⌊u⌋ := by
        rw [ratTrunc, if_pos (Rat.num_nonneg.mpr hu0)]
      have h1 : 1900 ≤ y := by
        rw [← hy, htr]
        exact Int.le_floor.mpr (by exact_mod_cast hb.1)
      have h2 : y ≤ 2027 := by
        rw [← hy, htr]
        have : (⌊u⌋ : Rat) ≤ ((2025 + 2 : Int) : Rat) :=
          le_trans (Int.floor_le u) hb.2
        exact_mod_cast this
      exact calcYear_int_in_range y h1 h2
    · split at h
      · next hb =>
        rw [Bool.and_eq_true, ratGtI_iff, ratLtI_iff] at hb
        have hy : ratTrunc (intSubRat 2025 u) = y := by injection h
        rw [intSubRat_eq] at hy
        have hq0 : (0 : Rat) ≤ ((2025 : Int) : Rat) - u := by
          have : u ≤ ((2025 : Int) : Rat) :=
            le_trans (le_of_lt hb.2) (by norm_num)
          linarith
        have htr : ratTrunc (((2025 : Int) : Rat) - u) = ⌊((2025 : Int) : Rat) - u⌋ := by
          rw [ratTrunc, if_pos (Rat.num_nonneg.mpr hq0)]
        have h1 : 1900 ≤ y := by
          rw [← hy, htr]
          refine Int.le_floor.mpr ?_
          have : ((100 : Int) : Rat) - u ≥ 0 := by
            have := le_of_lt hb.2
            push_cast at this ⊢
            linarith
          push_cast at this ⊢
          linarith
        have h2 : y ≤ 2027 := by
          rw [← hy, htr]
          have hfl : (⌊((2025 : Int) : Rat) - u⌋ : Rat) ≤ ((2025 : Int) : Rat) - u :=
            Int.floor_le _
          have hub : ((2025 : Int) : Rat) - u ≤ ((2027 : Int) : Rat) := by
            have : (0 : Rat) < u := by exact_mod_cast hb.1
            push_cast at *
            linarith
          exact_mod_cast le_trans hfl hub
        exact calcYear_int_in_range y h1 h2
      · exact absurd h (by simp)

theorem dlookup_pruneEmpty_of_empty (d : Dict Value) (k : Str) (v : Value)
    (hnd : (dkeys d).Nodup) (hv : dlookup d k = some v) (he : v.isEmpty = true) :
    dlookup (pruneEmpty d) k = none := by
  rcases hw : dlookup (pruneEmpty d) k with _ | w
  · rfl
  · have hmem : (k, w) ∈ d := mem_pruneEmpty d (k, w) (dlookup_some_mem _ _ _ hw)
    have hwv : w = v := by
      have hl := mem_nodup_dlookup d k w hmem hnd
      rw [hv] at hl
      exact (Option.some.inj hl).symm
    subst hwv
    have hne : w.isEmpty = false := by
      have := List.of_mem_filter (dlookup_some_mem _ _ _ hw)
      simpa using this
    rw [hne] at he
    exact Bool.noConfusion he

theorem fusePops_eq_of_absent (d : Dict Value)
    (h1 : dlookup d (str "amenidades_estructurales") = none)
    (h2 : dlookup d (str "amenidades_extraidas") = none)
    (h3 : ∀ l, dlookup d (str "equipamiento") ≠ some (Value.vlist l)) :
    fusePops d = ([], d) := by
  rcases hv : dlookup d (str "equipamiento") with _ | v
  · simp [fusePops, dpop_of_absent d _ h1, h2, hv, listOrNil]
  · cases v with
    | vlist l => exact absurd hv (h3 l)
    | num n => simp [fusePops, dpop_of_absent d _ h1, h2, hv, listOrNil]
    | vstr s => simp [fusePops, dpop_of_absent d _ h1, h2, hv, listOrNil]
    | flags f => simp [fusePops, dpop_of_absent d _ h1, h2, hv, listOrNil]
    | null => simp [fusePops, dpop_of_absent d _ h1, h2, hv, listOrNil]

theorem fuseAmenities_eq_of_absent (d : Dict Value)
    (h1 : dlookup d (str "amenidades_estructurales") = none)
    (h2 : dlookup d (str "amenidades_extraidas") = none)
    (h3 : ∀ l, dlookup d (str "equipamiento") ≠ some (Value.vlist l)) :
    fuseAmenities d = d := by
  simp only [fuseAmenities, fusePops_eq_of_absent d h1 h2 h3]
  simp

theorem nodup_dkeys_renameStep (acc : Dict Value) (kv : Str × Value)
    (h : (dkeys acc).Nodup) : (dkeys (renameStep acc kv)).Nodup := by
  simp only [renameStep]
  split
  · split
    · exact nodup_dkeys_dinsert _ _ _ h
    · exact h
  · next hn =>
    show (dkeys (acc ++ [(keyMapping kv.1, kv.2)])).Nodup
    have hkeys : dkeys (acc ++ [(keyMapping kv.1, kv.2)]) =
        dkeys acc ++ [keyMapping kv.1] := List.map_append _ _ _
    rw [hkeys]
    refine List.Nodup.append h (List.nodup_singleton _) ?_
    intro a ha hb
    have hab : a = keyMapping kv.1 := List.mem_singleton.mp hb
    exact (dlookup_eq_none_iff acc (keyMapping kv.1)).mp hn (hab ▸ ha)

theorem nodup_dkeys_renameFold (d : List (Str × Value)) (acc : Dict Value)
    (h : (dkeys acc).Nodup) : (dkeys (d.foldl renameStep acc)).Nodup := by
  induction d generalizing acc with
  | nil => exact h
  | cons kv rest ih => exact ih (renameStep acc kv) (nodup_dkeys_renameStep acc kv h)

theorem nodup_dkeys_renameKeys (d : Dict Value) :
    (dkeys (renameKeys d)).Nodup := nodup_dkeys_renameFold d [] List.nodup_nil

theorem dkeys_renameStep_sub (acc : Dict Value) (kv : Str × Value) (k : Str)
    (h : k ∈ dkeys (renameStep acc kv)) :
    k ∈ dkeys acc ∨ k = keyMapping kv.1 := by
  simp only [renameStep] at h
  split at h
  · split at h
    · next old hl _ =>
      rw [dkeys_dinsert_of_mem _ _ _ (by rw [hl]; exact fun hc => Option.noConfusion hc)] at h
      exact Or.inl h
    · exact Or.inl h
  · rw [show dkeys (acc ++ [(keyMapping kv.1, kv.2)]) =
        dkeys acc ++ [keyMapping kv.1] from List.map_append _ _ _] at h
    rcases List.mem_append.mp h with h | h
    · exact Or.inl h
    · exact Or.inr (List.mem_singleton.mp h)

theorem renameFold_keys (d : List (Str × Value)) (acc : Dict Value) (k : Str)
    (h : k ∈ dkeys (d.foldl renameStep acc)) :
    k ∈ dkeys acc ∨ ∃ k₀, k = keyMapping k₀ := by
  induction d generalizing acc with
  | nil => exact Or.inl h
  | cons kv rest ih =>
    rw [List.foldl_cons] at h
    rcases ih (renameStep acc kv) h with h | h
    · rcases dkeys_renameStep_sub acc kv k h with h | h
      · exact Or.inl h
      · exact Or.inr ⟨kv.1, h⟩
    · exact Or.inr h

theorem keyMapping_idem (k : Str) : keyMapping (keyMapping k) = keyMapping k := by
  rcases keyMapping_fix_or_image k with h | h
  · rw [h]
    exact h
  · simp only [List.mem_cons, List.not_mem_nil, or_false] at h
    rcases h with h | h | h | h <;> rw [h] <;> decide

theorem renameKeys_keys_fixed (d : Dict Value) (k : Str)
    (h : k ∈ dkeys (renameKeys d)) : keyMapping k = k := by
  rcases renameFold_keys d [] k h with h | ⟨k₀, hk₀⟩
  · exact absurd h (List.not_mem_nil k)
  · rw [hk₀]
    exact keyMapping_idem k₀

theorem renameFold_eq_append (d : List (Str × Value)) (acc : Dict Value)
    (hfix : ∀ kv ∈ d, keyMapping kv.1 = kv.1)
    (hnd : (dkeys d).Nodup)
    (hdis : ∀ k ∈ dkeys d, dlookup acc k = none) :
    d.foldl renameStep acc = acc ++ d := by
  induction d generalizing acc with
  | nil => exact (List.append_nil acc).symm
  | cons kv rest ih =>
    obtain ⟨k₀, v₀⟩ := kv
    simp only [dkeys, List.map_cons, List.nodup_cons] at hnd
    have hk₀ : keyMapping k₀ = k₀ := hfix (k₀, v₀) (List.mem_cons_self _ _)
    have hl₀ : dlookup acc k₀ = none :=
      hdis k₀ (List.mem_cons_self k₀ (dkeys rest))
    have hstep : renameStep acc (k₀, v₀) = acc ++ [(k₀, v₀)] := by
      simp only [renameStep, hk₀, hl₀]
    rw [List.foldl_cons, hstep,
      ih (acc ++ [(k₀, v₀)]) (fun kv hkv => hfix kv (List.mem_cons_of_mem _ hkv)) hnd.2 ?_,
      List.append_assoc]
    · rfl
    · intro k hk
      have hne : k₀ ≠ k := by
        intro he
        exact hnd.1 (he ▸ hk)
      rw [dlookup_append_sing_ne acc k₀ k v₀ hne]
      exact hdis k (List.mem_cons_of_mem k₀ hk)

theorem renameKeys_eq_self (d : Dict Value)
    (hfix : ∀ kv ∈ d, keyMapping kv.1 = kv.1)
    (hnd : (dkeys d).Nodup) : renameKeys d = d := by
  show d.foldl renameStep [] = d
  rw [renameFold_eq_append d [] hfix hnd (fun k _ => rfl)]
  exact List.nil_append d

theorem nodup_dkeys_consolidate (d : Dict Value) :
    (dkeys (consolidate d)).Nodup :=
  nodup_dkeys_pruneEmpty _ (nodup_dkeys_renameKeys _)

theorem consolidate_lookup_none (d : Dict Value) (k : Str)
    (hk : k ∉ [str "m²_terreno", str "m²_construcción",
      str "tipo_propiedad", str "edo_conservacion"])
    (h2 : dlookup (fixYear (fuseAmenities d)) k = none) :
    dlookup (consolidate d) k = none := by
  have hpre : ∀ k₀ ∈ dkeys (fixYear (fuseAmenities d)), keyMapping k₀ ≠ k := by
    intro k₀ hk₀ hc
    have he : k₀ = k := keyMapping_preimage k₀ k hc hk
    subst he
    exact (dlookup_eq_none_iff _ k₀).mp h2 hk₀
  exact dlookup_pruneEmpty_of_none _ _ (dlookup_renameKeys_none _ _ hpre)

theorem consolidate_lookup_back (d : Dict Value) (hnd : (dkeys d).Nodup) (k : Str) (v : Value)
    (hk : k ∉ [str "m²_terreno", str "m²_construcción",
      str "tipo_propiedad", str "edo_conservacion"])
    (hkfix : keyMapping k = k)
    (hc : dlookup (consolidate d) k = some v) :
    dlookup (fixYear (fuseAmenities d)) k = some v := by
  have hnd₂ : (dkeys (fixYear (fuseAmenities d))).Nodup :=
    nodup_dkeys_fixYear _ (nodup_dkeys_fuseAmenities d hnd)
  have hmem : (k, v) ∈ renameKeys (fixYear (fuseAmenities d)) :=
    mem_pruneEmpty _ (k, v) (dlookup_some_mem _ _ _ hc)
  have hr : dlookup (renameKeys (fixYear (fuseAmenities d))) k = some v :=
    mem_nodup_dlookup _ k v hmem (nodup_dkeys_renameKeys _)
  rcases hw : dlookup (fixYear (fuseAmenities d)) k with _ | w
  · have : dlookup (renameKeys (fixYear (fuseAmenities d))) k = none := by
      refine dlookup_renameKeys_none _ _ ?_
      intro k₀ hk₀ hcm
      have he : k₀ = k := keyMapping_preimage k₀ k hcm hk
      subst he
      exact (dlookup_eq_none_iff _ k₀).mp hw hk₀
    rw [this] at hr
    exact Option.noConfusion hr
  · have hsome : dlookup (renameKeys (fixYear (fuseAmenities d))) k = some w :=
      dlookup_renameKeys_some _ k w hkfix
        (fun k₀ _ hcm => keyMapping_preimage k₀ k hcm hk) hnd₂ hw
    rw [hsome] at hr
    exact hr

theorem consolidate_bare_none (d : Dict Value) (hnd : (dkeys d).Nodup) :
    dlookup (consolidate d) (str "amenidades_estructurales") = none := by
  refine consolidate_lookup_none d _ (by decide) ?_
  rw [dlookup_fixYear_ne _ _ (by decide)]
  exact dlookup_fuseAmenities_bare d hnd

theorem consolidate_extraidas_none (d : Dict Value) (hnd : (dkeys d).Nodup) :
    dlookup (consolidate d) (str "amenidades_extraidas") = none := by
  refine consolidate_lookup_none d _ (by decide) ?_
  rw [dlookup_fixYear_ne _ _ (by decide)]
  exact dlookup_fuseAmenities_extraidas d hnd

theorem consolidate_equip_not_vlist (d : Dict Value) (hnd : (dkeys d).Nodup) (l : List Str) :
    dlookup (consolidate d) (str "equipamiento") ≠ some (Value.vlist l) := by
  intro hc
  have hback : dlookup (fixYear (fuseAmenities d)) (str "equipamiento") =
      some (Value.vlist l) :=
    consolidate_lookup_back d hnd _ _ (by decide) (by decide) hc
  rw [dlookup_fixYear_ne _ _ (by decide)] at hback
  exact dlookup_fuseAmenities_equip d hnd l hback

theorem fuseAmenities_consolidate (d : Dict Value) (hnd : (dkeys d).Nodup) :
    fuseAmenities (consolidate d) = consolidate d :=
  fuseAmenities_eq_of_absent _ (consolidate_bare_none d hnd)
    (consolidate_extraidas_none d hnd) (consolidate_equip_not_vlist d hnd)

theorem fixYear_of_num (d : Dict Value) (q : Rat)
    (h : dlookup d (str "año_de_construcción") = some (Value.num q)) :
    fixYear d = dinsert d (str "año_de_construcción")
      (match calcYear q 2025 with
       | some y => Value.num ((y : Rat))
       | none => Value.null) := by
  unfold fixYear
  rw [h]

theorem fixYear_consolidate (d : Dict Value) (hnd : (dkeys d).Nodup) :
    fixYear (consolidate d) = consolidate d := by
  rcases hv : dlookup (consolidate d) (str "año_de_construcción") with _ | v
  · unfold fixYear
    rw [hv]
  · cases v with
    | num q =>
      have hback : dlookup (fixYear (fuseAmenities d)) (str "año_de_construcción") =
          some (Value.num q) :=
        consolidate_lookup_back d hnd _ _ (by decide) (by decide) hv
      rcases hy : dlookup (fuseAmenities d) (str "año_de_construcción") with _ | w
      · have hfy : fixYear (fuseAmenities d) = fuseAmenities d := by
          unfold fixYear
          rw [hy]
        rw [hfy, hy] at hback
        exact Option.noConfusion hback
      · cases w with
        | num u =>
          rw [fixYear_of_num _ u hy, dlookup_dinsert_self] at hback
          rcases hcy : calcYear u 2025 with _ | y
          · simp only [hcy] at hback
            exact absurd hback (by simp)
          · simp only [hcy] at hback
            have h₁ := Option.some.inj hback
            injection h₁ with h₂
            subst h₂
            have hst : calcYear ((y : Rat)) 2025 = some y := calcYear_stable u y hcy
            rw [fixYear_of_num _ _ hv, hst]
            exact dinsert_self_of_lookup _ _ _ hv
        | vstr s =>
          have hfy : fixYear (fuseAmenities d) = fuseAmenities d := by
            unfold fixYear
            rw [hy]
          rw [hfy, hy] at hback
          exact absurd (Option.some.inj hback) (by simp)
        | vlist l =>
          have hfy : fixYear (fuseAmenities d) = fuseAmenities d := by
            unfold fixYear
            rw [hy]
          rw [hfy, hy] at hback
          exact absurd (Option.some.inj hback) (by simp)
        | flags f =>
          have hfy : fixYear (fuseAmenities d) = fuseAmenities d := by
            unfold fixYear
            rw [hy]
          rw [hfy, hy] at hback
          exact absurd (Option.some.inj hback) (by simp)
        | null =>
          have hfy : fixYear (fuseAmenities d) = fuseAmenities d := by
            unfold fixYear
            rw [hy]
          rw [hfy, hy] at hback
          exact absurd (Option.some.inj hback) (by simp)
    | vstr s =>
      unfold fixYear
      rw [hv]
    | vlist l =>
      unfold fixYear
      rw [hv]
    | flags f =>
      unfold fixYear
      rw [hv]
    | null =>
      unfold fixYear
      rw [hv]

theorem renameKeys_consolidate (d : Dict Value) :
    renameKeys (consolidate d) = consolidate d := by
  refine renameKeys_eq_self _ ?_ (nodup_dkeys_consolidate d)
  intro kv hkv
  refine renameKeys_keys_fixed (fixYear (fuseAmenities d)) kv.1 ?_
  exact List.mem_map_of_mem Prod.fst (mem_pruneEmpty _ kv hkv)

theorem pruneEmpty_consolidate (d : Dict Value) :
    pruneEmpty (consolidate d) = consolidate d := by
  refine pruneEmpty_eq_self _ ?_
  intro kv hkv
  have hp := List.of_mem_filter hkv
  simpa using hp

theorem consolidate_idem (d : Dict Value) (hnd : (dkeys d).Nodup) :
    consolidate (consolidate d) = consolidate d := by
  show pruneEmpty (renameKeys (fixYear (fuseAmenities (consolidate d)))) = consolidate d
  rw [fuseAmenities_consolidate d hnd, fixYear_consolidate d hnd,
    renameKeys_consolidate d, pruneEmpty_consolidate d]

/-! Claim C8: `_clean_description_text`. -/

theorem get_some_lt {α : Type} (l : List α) (n : Nat) (a : α)
    (h : l.get? n = some a) : n < l.length := by
  induction l generalizing n with
  | nil => exact Option.noConfusion h
  | cons c rest ih =>
    cases n with
    | zero => exact Nat.succ_pos _
    | succ m => exact Nat.succ_lt_succ (ih m h)

theorem get_append_right {α : Type} (a b : List α) (i : Nat) :
    (a ++ b).get? (a.length + i) = b.get? i := by
  induction a with
  | nil => rw [List.nil_append, List.length_nil, Nat.zero_add]
  | cons c rest ih =>
    show (c :: (rest ++ b)).get? (rest.length + 1 + i) = b.get? i
    rw [show rest.length + 1 + i = (rest.length + i) + 1 by omega]
    exact ih

theorem get_append_left {α : Type} (a b : List α) (i : Nat) (h : i < a.length) :
    (a ++ b).get? i = a.get? i := by
  induction a generalizing i with
  | nil => exact absurd h (Nat.not_lt_zero i)
  | cons c rest ih =>
    cases i with
    | zero => rfl
    | succ m => exact ih m (Nat.lt_of_succ_lt_succ h)

theorem noTriple_suffix (a b : Str) (h : NoTripleNl (a ++ b)) : NoTripleNl b := by
  intro i hw
  refine h (a.length + i) ⟨?_, ?_, ?_⟩
  · rw [get_append_right]
    exact hw.1
  · rw [show a.length + i + 1 = a.length + (i + 1) by omega, get_append_right]
    exact hw.2.1
  · rw [show a.length + i + 2 = a.length + (i + 2) by omega, get_append_right]
    exact hw.2.2

theorem noTriple_prefix (a b : Str) (h : NoTripleNl (a ++ b)) : NoTripleNl a := by
  intro i hw
  have h0 : i < a.length := get_some_lt a i _ hw.1
  have h1 : i + 1 < a.length := get_some_lt a (i + 1) _ hw.2.1
  have h2 : i + 2 < a.length := get_some_lt a (i + 2) _ hw.2.2
  refine h i ⟨?_, ?_, ?_⟩
  · rw [get_append_left a b i h0]
    exact hw.1
  · rw [get_append_left a b (i + 1) h1]
    exact hw.2.1
  · rw [get_append_left a b (i + 2) h2]
    exact hw.2.2

theorem noTriple_cons (c : Char) (u : Str) (hc : c ≠ '\n') (h : NoTripleNl u) :
    NoTripleNl (c :: u) := by
  intro i hw
  cases i with
  | zero => exact hc (Option.some.inj hw.1)
  | succ m => exact h m ⟨hw.1, hw.2.1, hw.2.2⟩

theorem noTriple_cons_nl (v : Str) (h : NoTripleNl v)
    (hv : ¬ (v.get? 0 = some '\n' ∧ v.get? 1 = some '\n')) :
    NoTripleNl ('\n' :: v) := by
  intro i hw
  cases i with
  | zero => exact hv ⟨hw.2.1, hw.2.2⟩
  | succ m => exact h m ⟨hw.1, hw.2.1, hw.2.2⟩

theorem noTriple_block (k : Nat) (hk : k ≤ 2) (c : Char) (hc : c ≠ '\n') (u : Str)
    (h : NoTripleNl u) : NoTripleNl (List.replicate k '\n' ++ c :: u) := by
  interval_cases k
  · exact noTriple_cons c u hc h
  · exact noTriple_cons_nl _ (noTriple_cons c u hc h)
      (fun hp => hc (Option.some.inj hp.1))
  · refine noTriple_cons_nl _ ?_ ?_
    · exact noTriple_cons_nl _ (noTriple_cons c u hc h)
        (fun hp => hc (Option.some.inj hp.1))
    · intro hp
      exact hc (Option.some.inj hp.2)

theorem noTriple_replicate (k : Nat) (hk : k ≤ 2) :
    NoTripleNl (List.replicate k '\n') := by
  intro i hw
  have hlt := get_some_lt _ _ _ hw.2.2
  rw [List.length_replicate] at hlt
  omega

theorem noTriple_collapseNlAux (t : Str) : ∀ run, NoTripleNl (collapseNlAux run t) := by
  induction t with
  | nil =>
    intro run
    exact noTriple_replicate _ (by split <;> omega)
  | cons c rest ih =>
    intro run
    by_cases hc : c = '\n'
    · subst hc
      rw [show collapseNlAux run ('\n' :: rest) = collapseNlAux (run + 1) rest from by
        simp only [collapseNlAux]
        rw [if_pos trivial]]
      exact ih (run + 1)
    · rw [show collapseNlAux run (c :: rest) =
          List.replicate (if 3 ≤ run then 2 else run) '\n' ++
            (c :: collapseNlAux 0 rest) from by
        simp only [collapseNlAux]
        rw [if_neg hc]]
      exact noTriple_block _ (by split <;> omega) c hc _ (ih 0)

theorem noTriple_collapseNl (s : Str) : NoTripleNl (collapseNl s) :=
  noTriple_collapseNlAux s 0

theorem noTriple_dropWhile (p : Char → Bool) (l : Str) (h : NoTripleNl l) :
    NoTripleNl (l.dropWhile p) :=
  noTriple_suffix (l.takeWhile p) (l.dropWhile p)
    (by rw [List.takeWhile_append_dropWhile]; exact h)

theorem rstrip_decomp (p : Char → Bool) (u : Str) :
    u = (u.reverse.dropWhile p).reverse ++ (u.reverse.takeWhile p).reverse := by
  have h1 : List.takeWhile p u.reverse ++ List.dropWhile p u.reverse = u.reverse :=
    List.takeWhile_append_dropWhile p u.reverse
  calc u = u.reverse.reverse := (List.reverse_reverse u).symm
    _ = (List.takeWhile p u.reverse ++ List.dropWhile p u.reverse).reverse := by rw [h1]
    _ = (List.dropWhile p u.reverse).reverse ++ (List.takeWhile p u.reverse).reverse :=
        List.reverse_append _ _

theorem noTriple_pyStrip (s : Str) (h : NoTripleNl s) : NoTripleNl (pyStrip s) := by
  have h1 : NoTripleNl (stripLeft s) := noTriple_dropWhile isPySpace s h
  have h3 : NoTripleNl (((stripLeft s).reverse.dropWhile isPySpace).reverse ++
      ((stripLeft s).reverse.takeWhile isPySpace).reverse) := by
    rw [← rstrip_decomp isPySpace (stripLeft s)]
    exact h1
  exact noTriple_prefix _ _ h3

theorem dropWhile_idem_ch {α : Type} (p : α → Bool) (l : List α) :
    List.dropWhile p (List.dropWhile p l) = List.dropWhile p l := by
  induction l with
  | nil => rfl
  | cons c rest ih =>
    by_cases hc : p c = true
    · rw [List.dropWhile_cons_of_pos hc]
      exact ih
    · rw [List.dropWhile_cons_of_neg hc, List.dropWhile_cons_of_neg hc]

theorem head_dropWhile_not {α : Type} (p : α → Bool) (l : List α) (c : α) (t : List α)
    (h : List.dropWhile p l = c :: t) : p c = false := by
  induction l with
  | nil => exact absurd h (by simp)
  | cons a rest ih =>
    by_cases ha : p a = true
    · rw [List.dropWhile_cons_of_pos ha] at h
      exact ih h
    · rw [List.dropWhile_cons_of_neg ha] at h
      have hac : a = c := (List.cons.inj h).1
      subst hac
      cases hpa : p a
      · rfl
      · exact absurd hpa ha

theorem rstrip_head (p : Char → Bool) (c : Char) (t : Str) :
    (((c :: t).reverse.dropWhile p).reverse = []) ∨
    (∃ u, ((c :: t).reverse.dropWhile p).reverse = c :: u) := by
  rcases hv : ((c :: t).reverse.dropWhile p).reverse with _ | ⟨c₀, u⟩
  · exact Or.inl rfl
  · right
    have hdec := rstrip_decomp p (c :: t)
    rw [hv] at hdec
    injection hdec with h1 h2
    exact ⟨u, by rw [h1]⟩

theorem stripLeft_pyStrip (x : Str) : stripLeft (pyStrip x) = pyStrip x := by
  rcases hl : stripLeft x with _ | ⟨c, t⟩
  · show stripLeft (((stripLeft x).reverse.dropWhile isPySpace).reverse) =
      ((stripLeft x).reverse.dropWhile isPySpace).reverse
    rw [hl]
    rfl
  · have hpc : isPySpace c = false := head_dropWhile_not isPySpace x c t hl
    rcases rstrip_head isPySpace c t with hr | ⟨u, hr⟩
    · show stripLeft (((stripLeft x).reverse.dropWhile isPySpace).reverse) =
        ((stripLeft x).reverse.dropWhile isPySpace).reverse
      rw [hl, hr]
      rfl
    · show stripLeft (((stripLeft x).reverse.dropWhile isPySpace).reverse) =
        ((stripLeft x).reverse.dropWhile isPySpace).reverse
      rw [hl, hr]
      unfold stripLeft
      rw [List.dropWhile_cons_of_neg (by simp [hpc])]

theorem pyStrip_idem (x : Str) : pyStrip (pyStrip x) = pyStrip x := by
  show ((stripLeft (pyStrip x)).reverse.dropWhile isPySpace).reverse = pyStrip x
  rw [stripLeft_pyStrip x]
  show (((((stripLeft x).reverse.dropWhile isPySpace).reverse).reverse.dropWhile
    isPySpace).reverse) = pyStrip x
  rw [List.reverse_reverse, dropWhile_idem_ch]
  rfl

/-- Claim C8: `_clean_description_text` produces a string in the normal
form the spec describes: no run of three or more line breaks survives
(3+ breaks collapse to one blank line) and the whole result is trimmed
(stripping it again changes nothing); and on the spec's example,
`clean_multiline("a\n\n\n\nb") = "a\n\nb"`, with a second example checking
the per-line whitespace collapse and trim. -/
theorem claim8_theorem :
    (∀ s, NoTripleNl (cleanDescriptionText s) ∧
      pyStrip (cleanDescriptionText s) = cleanDescriptionText s) ∧
    cleanDescriptionText (str "a\n\n\n\nb") = str "a\n\nb" ∧
    cleanDescriptionText (str "  a   b \n\n\n\nc  ") = str "a b\n\nc" := by
  refine ⟨fun s => ⟨?_, ?_⟩, ?_, ?_⟩
  · exact noTriple_pyStrip _ (noTriple_collapseNl _)
  · exact pyStrip_idem _
  · decide
  · decide

/-- Claim C9: the consolidation stage of `parse_property_html` (amenity
fusion, construction-year normalisation, synonym renaming, final pruning)
is idempotent on final records: for every page, re-running `consolidate`
on the returned PropertyRecord changes nothing. -/
theorem claim9_theorem (page : Page) :
    consolidate (parsePropertyHtml page) = parsePropertyHtml page :=
  consolidate_idem (mergedData page) (nodup_dkeys_mergedData page)

end C21
